import Mathlib

/-!
# Verification of the profile analysis engine

A shallow embedding, in Lean 4, of the core algorithms of the profiler
repository: call-tree counts and summaries (`computeCallTreeCountsAndSummary`),
the `CallTree` query facade, the thread filter pipeline selectors, the
transform-stack string codec (`parseTransforms` / `stringifyTransforms`),
symbolication-driven func substitution, the diff-correspondence table, and the
call-tree summary-strategy selector.

Conventions of the embedding:
* JS `Float32Array` / numeric arrays over profile weights are modelled as
  `List ℤ` (sample weights are integral — sample counts or byte counts, and
  their negations in diff profiles — and the integers reached by the
  analyzed code paths are exact in `Float32`, so additive accumulation over
  them is exact). The relative ratios computed by `getNodeData` are `ℚ`.
* JS array indices are `ℕ`; the `-1` sentinels used for "no prefix" are kept
  as `Int` where the source uses them.
* Out-of-range typed-array writes are silently ignored in JS; `List.set` has
  the same out-of-range behavior, which keeps the embedding faithful.
* Collaborator functions that are not part of the analyzed source are
  modelled from the specification and are marked `Modelled from the spec:` in
  their doc comments.
-/

namespace Profiler

/-! ## Call-tree summary strategy (selectors/per-thread/thread.ts) -/

/-- The six call-tree summary strategies of the source's
`CallTreeSummaryStrategy` union type. -/
inductive CallTreeSummaryStrategy where
  | timing
  | jsAllocations
  | nativeAllocations
  | nativeRetainedAllocations
  | nativeDeallocationsSites
  | nativeDeallocationsMemory
deriving DecidableEq, Repr

/-- The slice of a `Thread` that `getCallTreeSummaryStrategy` reads:
the length of the samples table, and the optional jsAllocations /
nativeAllocations tables (recorded by their lengths when present). -/
structure ThreadTables where
  samplesLength : Nat
  jsAllocations : Option Nat
  nativeAllocations : Option Nat
deriving DecidableEq, Repr

/-- The JS truthiness test `thread.nativeAllocations &&
thread.nativeAllocations.length > 0`. -/
def nativeAllocationsNonEmpty (thread : ThreadTables) : Bool :=
  match thread.nativeAllocations with
  | some len => 0 < len
  | none => false

/-- Embedding of `getCallTreeSummaryStrategy` (thread.ts): the selector that
reconciles the last selected summary strategy with what the thread's tables
actually support. -/
def getCallTreeSummaryStrategy (thread : ThreadTables)
    (lastSelected : CallTreeSummaryStrategy) : CallTreeSummaryStrategy :=
  match lastSelected with
  | .timing =>
      if thread.samplesLength = 0 ∧ nativeAllocationsNonEmpty thread then
        .nativeAllocations
      else
        .timing
  | .jsAllocations =>
      if thread.jsAllocations = none then .timing else .jsAllocations
  | .nativeAllocations =>
      if thread.nativeAllocations = none then .timing else .nativeAllocations
  | .nativeRetainedAllocations =>
      if thread.nativeAllocations = none then .timing
      else .nativeRetainedAllocations
  | .nativeDeallocationsSites =>
      if thread.nativeAllocations = none then .timing
      else .nativeDeallocationsSites
  | .nativeDeallocationsMemory =>
      if thread.nativeAllocations = none then .timing
      else .nativeDeallocationsMemory

/-- C10: the summary-strategy selector degrades in both directions: on a
thread with zero samples but a non-empty nativeAllocations table, a last
selected strategy of `timing` is replaced by `native-allocations`; and a
missing jsAllocations (resp. nativeAllocations) table maps the corresponding
allocation strategies back to `timing`. -/
theorem summary_strategy_bidirectional_fallback (t : ThreadTables) :
    (t.samplesLength = 0 → ∀ len, t.nativeAllocations = some len → 0 < len →
      getCallTreeSummaryStrategy t .timing = .nativeAllocations)
    ∧ (t.jsAllocations = none →
        getCallTreeSummaryStrategy t .jsAllocations = .timing)
    ∧ (t.nativeAllocations = none →
        getCallTreeSummaryStrategy t .nativeAllocations = .timing
        ∧ getCallTreeSummaryStrategy t .nativeRetainedAllocations = .timing
        ∧ getCallTreeSummaryStrategy t .nativeDeallocationsSites = .timing
        ∧ getCallTreeSummaryStrategy t .nativeDeallocationsMemory = .timing) := by
  refine ⟨?_, ?_, ?_⟩
  · intro hs len hn hlen
    simp [getCallTreeSummaryStrategy, hs, nativeAllocationsNonEmpty, hn, hlen]
  · intro hj
    simp [getCallTreeSummaryStrategy, hj]
  · intro hn
    simp [getCallTreeSummaryStrategy, hn]

/-- Witness for `summary_strategy_bidirectional_fallback`, applying it to two
concrete threads: one with no samples but 3 native allocations, and one with
samples but no allocation tables. -/
theorem summary_strategy_bidirectional_fallback_witness :
    getCallTreeSummaryStrategy ⟨0, none, some 3⟩ .timing
      = .nativeAllocations
    ∧ getCallTreeSummaryStrategy ⟨5, none, none⟩ .jsAllocations = .timing
    ∧ getCallTreeSummaryStrategy ⟨5, none, none⟩ .nativeAllocations
      = .timing :=
  ⟨(summary_strategy_bidirectional_fallback ⟨0, none, some 3⟩).1 rfl 3 rfl
      (by decide),
    (summary_strategy_bidirectional_fallback ⟨5, none, none⟩).2.1 rfl,
    ((summary_strategy_bidirectional_fallback ⟨5, none, none⟩).2.2 rfl).1⟩

/-! ## Call-tree counts and summary (call-tree.ts)

The samples-like table carries, for each sample, an optional stack index and
an optional weight column; the call-node table is represented by the columns
the analyzed functions read (`prefix`, and `func` for display data).
`prefix` is a Lean keyword, so the column is named `prefixCol`. -/

/-- The slice of `SamplesLikeTable` read by the aggregation functions:
`samples.stack` (an optional stack index per sample) and the optional
`samples.weight` column. -/
structure SamplesLikeTable where
  stack : List (Option Nat)
  weight : Option (List ℤ)
deriving DecidableEq, Repr

/-- `samples.weight ? samples.weight[sampleIndex] : 1`. -/
def sampleWeight (samples : SamplesLikeTable) (sampleIndex : Nat) : ℤ :=
  match samples.weight with
  | some w => w.getD sampleIndex 0
  | none => 1

/-- The per-sample weights, in sample order. -/
def sampleWeights (samples : SamplesLikeTable) : List ℤ :=
  (List.range samples.stack.length).map (sampleWeight samples)

/-- Modelled from the spec: `getSampleIndexToCallNodeIndex` (profile-data) is
not part of the analyzed source; the spec states that the mapping
`stackIndex → callNodeIndex` is total, and that a sample's call node is the
call node of its (optional) stack. A null stack stays null. -/
def getSampleIndexToCallNodeIndex (sampleStacks : List (Option Nat))
    (stackIndexToCallNodeIndex : List Nat) : List (Option Nat) :=
  sampleStacks.map (fun stack => stack.map
    (fun stackIndex => stackIndexToCallNodeIndex.getD stackIndex 0))

/-- `arr[i] += w` on a numeric array: out-of-range writes are silently
ignored, exactly as on a JS typed array. -/
def addToIndex (arr : List ℤ) (i : Nat) (w : ℤ) : List ℤ :=
  arr.set i (arr.getD i 0 + w)

/-- The body of the per-sample accumulation loop shared by `_getStackSelf`
and `_getInvertedStackSelf`: a `(callNodeIndex?, weight)` pair adds its
weight at the image of its call node under `target` when the call node is
non-null. -/
def accumulateStep (target : Nat → Nat) (acc : List ℤ)
    (e : Option Nat × ℤ) : List ℤ :=
  match e.1 with
  | some callNodeIndex => addToIndex acc (target callNodeIndex) e.2
  | none => acc

/-- The per-sample accumulation loop shared by `_getStackSelf` and
`_getInvertedStackSelf`. -/
def accumulateAtTargets (target : Nat → Nat) (n : Nat)
    (entries : List (Option Nat × ℤ)) : List ℤ :=
  entries.foldl (accumulateStep target) (List.replicate n 0)

/-- Embedding of `_getStackSelf` (call-tree.ts): for every sample with a
non-null call node, add its weight (default 1) to `callNodeSelf[callNode]`.
The function also returns this array as `callNodeLeaf`. -/
def _getStackSelf (samples : SamplesLikeTable) (n : Nat)
    (sampleIndexToCallNodeIndex : List (Option Nat)) : List ℤ :=
  accumulateAtTargets id n
    (sampleIndexToCallNodeIndex.zip (sampleWeights samples))

/-- The forward pass of `_getInvertedStackSelf`, stopped after the first `n`
call nodes: for every call node, the root call node at the top of its prefix
chain, reusing the already-computed value of the (earlier) prefix. -/
def callNodeToRootAux (prefixCol : List Int) (n : Nat) : List Nat :=
  (List.range n).foldl
    (fun acc i =>
      let p := prefixCol.getD i (-1)
      acc ++ [if p = -1 then i else acc.getD p.toNat 0])
    []

/-- The forward pass of `_getInvertedStackSelf` computing, for every call
node, the root call node at the top of its prefix chain. -/
def callNodeToRoot (prefixCol : List Int) : List Nat :=
  callNodeToRootAux prefixCol prefixCol.length

/-- Embedding of `_getInvertedStackSelf` (call-tree.ts): each sample's weight
is attributed as `self` to the root of its call path, and as `leaf` to its
actual call node. Returns `(callNodeSelf, callNodeLeaf)`. -/
def _getInvertedStackSelf (samples : SamplesLikeTable) (prefixCol : List Int)
    (sampleIndexToCallNodeIndex : List (Option Nat)) : List ℤ × List ℤ :=
  let toRoot := callNodeToRoot prefixCol
  let entries := sampleIndexToCallNodeIndex.zip (sampleWeights samples)
  (accumulateAtTargets (fun cn => toRoot.getD cn 0) prefixCol.length entries,
    accumulateAtTargets id prefixCol.length entries)

/-- The state threaded through the reverse accumulation loop of
`computeCallTreeCountsAndSummary`. -/
structure AccumState where
  total : List ℤ
  childCount : List Nat
  rootCount : Nat
  rootTotalSummary : ℤ
deriving DecidableEq, Repr

/-- One iteration of the reverse loop of `computeCallTreeCountsAndSummary`,
processing call node `i`. -/
def accumulateTotalsStep (prefixCol : List Int) (leaf : List ℤ)
    (st : AccumState) (i : Nat) : AccumState :=
  let leafI := leaf.getD i 0
  let total := addToIndex st.total i leafI
  let st : AccumState :=
    { st with
      total := total
      rootTotalSummary := st.rootTotalSummary + |leafI| }
  let hasChildren := st.childCount.getD i 0 ≠ 0
  let hasTotalValue := total.getD i 0 ≠ 0
  if ¬hasChildren ∧ ¬hasTotalValue then st
  else
    let p := prefixCol.getD i (-1)
    if p = -1 then { st with rootCount := st.rootCount + 1 }
    else
      { st with
        total := addToIndex st.total p.toNat (total.getD i 0)
        childCount :=
          st.childCount.set p.toNat (st.childCount.getD p.toNat 0 + 1) }

/-- The reverse (children-before-parents) accumulation loop of
`computeCallTreeCountsAndSummary`, before the root snap-to-zero step. -/
def accumulateTotals (prefixCol : List Int) (leaf : List ℤ) : AccumState :=
  (List.range prefixCol.length).reverse.foldl
    (accumulateTotalsStep prefixCol leaf)
    { total := List.replicate prefixCol.length 0
      childCount := List.replicate prefixCol.length 0
      rootCount := 0
      rootTotalSummary := 0 }

/-- The result record of `computeCallTreeCountsAndSummary`. -/
structure CallTreeCountsAndSummary where
  self : List ℤ
  total : List ℤ
  callNodeChildCount : List Nat
  rootCount : Nat
  rootTotalSummary : ℤ
deriving DecidableEq, Repr

/-- The `callNodeSelf` component of the destructuring
`invertCallstack ? _getInvertedStackSelf(...) : _getStackSelf(...)` in
`computeCallTreeCountsAndSummary`. -/
def callNodeSelfArray (samples : SamplesLikeTable) (prefixCol : List Int)
    (sampleIndexToCallNodeIndex : List (Option Nat)) (invertCallstack : Bool) :
    List ℤ :=
  if invertCallstack then
    (_getInvertedStackSelf samples prefixCol sampleIndexToCallNodeIndex).1
  else _getStackSelf samples prefixCol.length sampleIndexToCallNodeIndex

/-- The `callNodeLeaf` component of the destructuring
`invertCallstack ? _getInvertedStackSelf(...) : _getStackSelf(...)` in
`computeCallTreeCountsAndSummary` (in the un-inverted case `callNodeLeaf`
is the same array as `callNodeSelf`). -/
def callNodeLeafArray (samples : SamplesLikeTable) (prefixCol : List Int)
    (sampleIndexToCallNodeIndex : List (Option Nat)) (invertCallstack : Bool) :
    List ℤ :=
  if invertCallstack then
    (_getInvertedStackSelf samples prefixCol sampleIndexToCallNodeIndex).2
  else _getStackSelf samples prefixCol.length sampleIndexToCallNodeIndex

/-- Embedding of `computeCallTreeCountsAndSummary` (call-tree.ts). The unused
`interval` argument of the source is omitted. The final `if` is the source's
snap-to-zero of a small root total on an un-inverted tree. -/
def computeCallTreeCountsAndSummary (samples : SamplesLikeTable)
    (prefixCol : List Int) (stackIndexToCallNodeIndex : List Nat)
    (invertCallstack : Bool) : CallTreeCountsAndSummary :=
  let sampleIndexToCallNodeIndex :=
    getSampleIndexToCallNodeIndex samples.stack stackIndexToCallNodeIndex
  let callNodeSelf :=
    callNodeSelfArray samples prefixCol sampleIndexToCallNodeIndex
      invertCallstack
  let callNodeLeaf :=
    callNodeLeafArray samples prefixCol sampleIndexToCallNodeIndex
      invertCallstack
  let st := accumulateTotals prefixCol callNodeLeaf
  let total :=
    if invertCallstack = false ∧ st.total.getD 0 0 < 10 then st.total.set 0 0
    else st.total
  { self := callNodeSelf
    total := total
    callNodeChildCount := st.childCount
    rootCount := st.rootCount
    rootTotalSummary := st.rootTotalSummary }

/-! ## The CallTree query facade (call-tree.ts, class CallTree) -/

/-- The comparator passed to `children.sort` in `CallTree.getChildren`,
returning a number whose sign decides the order: `-1` when the totals have
equal magnitude and `a` is positive while `b` is negative, `1` in the mirror
case, otherwise `|total[b]| - |total[a]|`. -/
def cmpChildren (total : List ℤ) (a b : Nat) : ℤ :=
  if |total.getD a 0| = |total.getD b 0| ∧
      0 < total.getD a 0 ∧ total.getD b 0 < 0 then -1
  else if |total.getD a 0| = |total.getD b 0| ∧
      total.getD a 0 < 0 ∧ 0 < total.getD b 0 then 1
  else |total.getD b 0| - |total.getD a 0|

/-- The scan loop of `CallTree.getChildren`: starting at `i`, collect the
call nodes whose prefix is `node` and whose total or child count is non-zero,
stopping once `needed` children have been found or the table is exhausted.
`fuel` is an upper bound on the remaining iterations, keeping the recursion
structural (the loop itself is bounded by the table length). -/
def collectChildrenGo (prefixCol : List Int) (total : List ℤ)
    (childCount : List Nat) (node : Int) :
    Nat → Nat → Nat → List Nat
  | 0, _, _ => []
  | fuel + 1, i, needed =>
    if i < prefixCol.length then
      if needed = 0 then []
      else if prefixCol.getD i (-1) = node ∧
          (total.getD i 0 ≠ 0 ∨ childCount.getD i 0 ≠ 0) then
        i :: collectChildrenGo prefixCol total childCount node fuel (i + 1)
            (needed - 1)
      else collectChildrenGo prefixCol total childCount node fuel (i + 1)
          needed
    else []

/-- Embedding of `CallTree.getChildren` (call-tree.ts): scan the call-node
table from `node + 1` for rows whose prefix is `node` and whose total or
child count is non-zero (collecting at most `childCount[node]` of them, or
`rootCount` when `node = -1`), then sort with the source's comparator. The
source's `Array.prototype.sort` is stable and its comparator induces a total
preorder, so it is modelled by a stable insertion sort. -/
def getChildren (prefixCol : List Int) (total : List ℤ)
    (childCount : List Nat) (rootCount : Nat) (node : Int) : List Nat :=
  let cnt := if node = -1 then rootCount else childCount.getD node.toNat 0
  let collected :=
    collectChildrenGo prefixCol total childCount node prefixCol.length
      (node + 1).toNat cnt
  collected.insertionSort (fun a b => cmpChildren total a b ≤ 0)

/-- The thread columns read by `CallTree.getNodeData`: the interned string
table and the func table's `name` column. -/
structure ThreadNames where
  stringTable : List String
  funcTableName : List Nat
deriving DecidableEq, Repr

/-- The record returned by `CallTree.getNodeData`. -/
structure CallNodeData where
  funcName : String
  total : ℤ
  totalRelative : ℚ
  self : ℤ
  selfRelative : ℚ
deriving DecidableEq, Repr

/-- Embedding of `CallTree.getNodeData` (call-tree.ts): the node's func name
and its total/self weights, also relative to `rootTotalSummary` (0 when
`rootTotalSummary` is 0, per the JS truthiness test). -/
def getNodeData (thread : ThreadNames) (funcCol : List Nat)
    (summarySelf summaryTotal : List ℤ) (rootTotalSummary : ℤ)
    (callNodeIndex : Nat) : CallNodeData :=
  let funcIndex := funcCol.getD callNodeIndex 0
  let funcName :=
    thread.stringTable.getD (thread.funcTableName.getD funcIndex 0) ""
  let total := summaryTotal.getD callNodeIndex 0
  let totalRelative : ℚ :=
    if rootTotalSummary ≠ 0 then (total : ℚ) / (rootTotalSummary : ℚ) else 0
  let self := summarySelf.getD callNodeIndex 0
  let selfRelative : ℚ :=
    if rootTotalSummary ≠ 0 then (self : ℚ) / (rootTotalSummary : ℚ) else 0
  { funcName := funcName
    total := total
    totalRelative := totalRelative
    self := self
    selfRelative := selfRelative }

/-! ## Basic lemmas about indexed updates -/

theorem getD_set_self {α : Type _} (l : List α) (i : Nat) (v d : α)
    (h : i < l.length) : (l.set i v).getD i d = v := by
  induction l generalizing i with
  | nil => simp at h
  | cons a t ih =>
    cases i with
    | zero => rfl
    | succ j =>
      simp only [List.set, List.getD, List.get?]
      exact ih j (by simpa using h)

theorem getD_set_ne {α : Type _} (l : List α) (i j : Nat) (v d : α)
    (h : j ≠ i) : (l.set i v).getD j d = l.getD j d := by
  induction l generalizing i j with
  | nil => rfl
  | cons a t ih =>
    cases i with
    | zero =>
      cases j with
      | zero => exact absurd rfl h
      | succ k => rfl
    | succ i' =>
      cases j with
      | zero => rfl
      | succ k =>
        simp only [List.set, List.getD, List.get?]
        exact ih i' k (fun hk => h (by simp [hk]))

/-! ## C3: the root snap-to-zero -/

/-- C3 (amended): in `computeCallTreeCountsAndSummary`, the published total
at index `i` equals the accumulated total, except that it is snapped to
exactly 0 when (and only when) the tree is un-inverted, `i = 0`, and the
accumulated root total is (signed) less than 10. In particular a negative
root total of any magnitude is snapped as well — the comparison is signed,
not absolute. -/
theorem root_total_snap_signed_characterization (samples : SamplesLikeTable)
    (prefixCol : List Int) (stackIndexToCallNodeIndex : List Nat)
    (invertCallstack : Bool) (i : Nat) :
    (computeCallTreeCountsAndSummary samples prefixCol stackIndexToCallNodeIndex
        invertCallstack).total.getD i 0
      = (let raw := (accumulateTotals prefixCol
            (callNodeLeafArray samples prefixCol
              (getSampleIndexToCallNodeIndex samples.stack
                stackIndexToCallNodeIndex)
              invertCallstack)).total
        if invertCallstack = false ∧ i = 0 ∧ raw.getD 0 0 < 10 then 0
        else raw.getD i 0) := by
  set raw := (accumulateTotals prefixCol
    (callNodeLeafArray samples prefixCol
      (getSampleIndexToCallNodeIndex samples.stack stackIndexToCallNodeIndex)
      invertCallstack)).total with hraw
  show (if invertCallstack = false ∧ raw.getD 0 0 < 10 then raw.set 0 0
      else raw).getD i 0 = _
  by_cases hinv : invertCallstack = false
  · by_cases hlt : raw.getD 0 0 < 10
    · by_cases hi : i = 0
      · subst hi
        simp only [hinv, hlt, and_self, if_true, true_and]
        cases hr : raw with
        | nil => simp
        | cons a t => exact getD_set_self (a :: t) 0 0 0 (by simp)
      · simp only [hinv, hlt, hi, and_self, if_true, true_and, false_and,
          and_false, if_false]
        exact getD_set_ne raw 0 i 0 0 hi
    · simp only [List.getD, List.get?_eq_getElem?] at hlt ⊢
      simp [hinv, hlt]
  · simp [hinv]

/-- C3 (counterexample to the claim as stated): a root total of `-50`, whose
absolute value exceeds 10, is not left unchanged: it is snapped to 0 because
the source compares the signed value against 10. -/
theorem root_total_snap_negative_counterexample :
    (accumulateTotals [-1]
        (callNodeLeafArray ⟨[some 0], some [-50]⟩ [-1]
          (getSampleIndexToCallNodeIndex [some 0] [0]) false)).total.getD 0 0
      = -50
    ∧ (10 : ℤ) ≤ |(-50 : ℤ)|
    ∧ (computeCallTreeCountsAndSummary ⟨[some 0], some [-50]⟩ [-1] [0]
        false).total.getD 0 0 = 0 := by
  decide

/-! ## C1: the 3-sample A→B→C scenario -/

/-- The samples table of the scenario: 3 samples, no weight column (weight 1
each), all sampling the leaf stack `A→B→C` (stack index 2). -/
def scenarioSamplesABC : SamplesLikeTable := ⟨[some 2, some 2, some 2], none⟩

/-- The counts and summary of the scenario's un-inverted call tree, over the
call-node table `A (root) ← B ← C` with the identity stack-to-call-node
mapping. -/
def scenarioCountsABC : CallTreeCountsAndSummary :=
  computeCallTreeCountsAndSummary scenarioSamplesABC [-1, 0, 1] [0, 1, 2] false

/-- The thread's string and func tables for the scenario: funcs named
`A`, `B`, `C`. -/
def scenarioThreadABC : ThreadNames := ⟨["A", "B", "C"], [0, 1, 2]⟩

/-- `CallTree.getNodeData` over the scenario's call tree. -/
def scenarioNodeDataABC (i : Nat) : CallNodeData :=
  getNodeData scenarioThreadABC [0, 1, 2] scenarioCountsABC.self
    scenarioCountsABC.total scenarioCountsABC.rootTotalSummary i

/-- `CallTree.getChildren` over the scenario's call tree. -/
def scenarioChildrenABC (node : Int) : List Nat :=
  getChildren [-1, 0, 1] scenarioCountsABC.total
    scenarioCountsABC.callNodeChildCount scenarioCountsABC.rootCount node

/-- C1 (counterexample to the claim as stated): in the 3-sample `A→B→C`
scenario the root `A` does not report total 3 — its total is snapped to 0 by
the root snap-to-zero step (`3 < 10`). -/
theorem scenario_abc_root_total_not_three :
    (scenarioNodeDataABC 0).funcName = "A"
    ∧ (scenarioNodeDataABC 0).total = 0
    ∧ (scenarioNodeDataABC 0).total ≠ 3 := by
  decide

/-- C1 (amended): the un-inverted call tree of the 3-sample `A→B→C` scenario
has exactly one root `A` (total 0 after the root snap-to-zero, self 0),
whose only child is `B` (total 3, self 0), whose only child is `C`
(total 3, self 3). -/
theorem scenario_abc_uninverted_tree :
    scenarioChildrenABC (-1) = [0]
    ∧ scenarioChildrenABC 0 = [1]
    ∧ scenarioChildrenABC 1 = [2]
    ∧ scenarioChildrenABC 2 = []
    ∧ (scenarioNodeDataABC 0).funcName = "A"
    ∧ (scenarioNodeDataABC 0).total = 0
    ∧ (scenarioNodeDataABC 0).self = 0
    ∧ (scenarioNodeDataABC 1).funcName = "B"
    ∧ (scenarioNodeDataABC 1).total = 3
    ∧ (scenarioNodeDataABC 1).self = 0
    ∧ (scenarioNodeDataABC 2).funcName = "C"
    ∧ (scenarioNodeDataABC 2).total = 3
    ∧ (scenarioNodeDataABC 2).self = 3 := by
  decide

/-! ## C4: weight conservation in the aggregator -/

/-- `addToIndex` on the head of a list. -/
theorem addToIndex_cons_zero (a : ℤ) (t : List ℤ) (w : ℤ) :
    addToIndex (a :: t) 0 w = (a + w) :: t := rfl

/-- `addToIndex` below the head of a list. -/
theorem addToIndex_cons_succ (a : ℤ) (t : List ℤ) (j : Nat) (w : ℤ) :
    addToIndex (a :: t) (j + 1) w = a :: addToIndex t j w := rfl

theorem length_addToIndex (arr : List ℤ) (i : Nat) (w : ℤ) :
    (addToIndex arr i w).length = arr.length := by
  simp [addToIndex]

theorem sum_addToIndex (arr : List ℤ) (i : Nat) (w : ℤ)
    (h : i < arr.length) : (addToIndex arr i w).sum = arr.sum + w := by
  induction arr generalizing i with
  | nil => simp at h
  | cons a t ih =>
    cases i with
    | zero => simp [addToIndex_cons_zero]; ring
    | succ j =>
      rw [addToIndex_cons_succ, List.sum_cons, List.sum_cons,
        ih j (by simpa using h)]
      ring

theorem getD_addToIndex_ne (arr : List ℤ) (i j : Nat) (w : ℤ) (h : j ≠ i) :
    (addToIndex arr i w).getD j 0 = arr.getD j 0 :=
  getD_set_ne arr i j _ 0 h

/-- The sum of the weights of the entries with a non-null call node. -/
def someWeightSum : List (Option Nat × ℤ) → ℤ
  | [] => 0
  | (some _, w) :: t => w + someWeightSum t
  | (none, _) :: t => someWeightSum t

theorem accumulateStep_some (target : Nat → Nat) (acc : List ℤ) (cn : Nat)
    (w : ℤ) :
    accumulateStep target acc (some cn, w) = addToIndex acc (target cn) w :=
  rfl

theorem accumulateStep_none (target : Nat → Nat) (acc : List ℤ) (w : ℤ) :
    accumulateStep target acc (none, w) = acc := rfl

theorem length_accumulateStep_fold (target : Nat → Nat)
    (entries : List (Option Nat × ℤ)) :
    ∀ acc : List ℤ,
      (entries.foldl (accumulateStep target) acc).length = acc.length := by
  induction entries with
  | nil => intro acc; rfl
  | cons e t ih =>
    intro acc
    obtain ⟨o, w⟩ := e
    cases o with
    | none => simpa [accumulateStep_none] using ih acc
    | some cn =>
      simpa [accumulateStep_some, length_addToIndex]
        using ih (addToIndex acc (target cn) w)

/-- The per-sample accumulation loop adds exactly the weights of the
non-null entries to the array's sum, provided every update lands inside the
array. -/
theorem sum_accumulateStep_fold (target : Nat → Nat)
    (entries : List (Option Nat × ℤ)) :
    ∀ acc : List ℤ,
      (∀ e ∈ entries, ∀ cn, e.1 = some cn → target cn < acc.length) →
      (entries.foldl (accumulateStep target) acc).sum
        = acc.sum + someWeightSum entries := by
  induction entries with
  | nil => intro acc _; simp [someWeightSum]
  | cons e t ih =>
    intro acc hin
    obtain ⟨o, w⟩ := e
    cases o with
    | none =>
      rw [List.foldl_cons, accumulateStep_none]
      have := ih acc
        (fun e he cn hcn => hin e (List.mem_cons_of_mem _ he) cn hcn)
      simpa [someWeightSum] using this
    | some cn =>
      rw [List.foldl_cons, accumulateStep_some]
      have hlt : target cn < acc.length :=
        hin (some cn, w) (List.mem_cons_self _ _) cn rfl
      have hrec := ih (addToIndex acc (target cn) w)
        (fun e he c hc => by
          rw [length_addToIndex]
          exact hin e (List.mem_cons_of_mem _ he) c hc)
      rw [hrec, sum_addToIndex acc (target cn) w hlt]
      simp only [someWeightSum]
      ring

/-- An index never targeted by the entries keeps its initial value through
the accumulation loop. -/
theorem getD_accumulateStep_fold_untouched (target : Nat → Nat)
    (entries : List (Option Nat × ℤ)) (j : Nat) :
    ∀ acc : List ℤ,
      (∀ e ∈ entries, ∀ cn, e.1 = some cn → target cn ≠ j) →
      (entries.foldl (accumulateStep target) acc).getD j 0 = acc.getD j 0 := by
  induction entries with
  | nil => intro acc _; rfl
  | cons e t ih =>
    intro acc hne
    obtain ⟨o, w⟩ := e
    cases o with
    | none =>
      rw [List.foldl_cons, accumulateStep_none]
      exact ih acc (fun e he cn hcn => hne e (List.mem_cons_of_mem _ he) cn hcn)
    | some cn =>
      rw [List.foldl_cons, accumulateStep_some]
      have h1 := ih (addToIndex acc (target cn) w)
        (fun e he c hc => hne e (List.mem_cons_of_mem _ he) c hc)
      rw [h1, getD_addToIndex_ne acc (target cn) j w
        (fun hj => hne (some cn, w) (List.mem_cons_self _ _) cn rfl (hj ▸ rfl))]

theorem getD_replicate_zero (n j : Nat) :
    (List.replicate n (0 : ℤ)).getD j 0 = 0 := by
  induction n generalizing j with
  | zero => rfl
  | succ m ih =>
    cases j with
    | zero => rfl
    | succ k => exact ih k

theorem getD_append_left' {α : Type _} (l l' : List α) (i : Nat) (d : α)
    (h : i < l.length) : (l ++ l').getD i d = l.getD i d := by
  induction l generalizing i with
  | nil => simp at h
  | cons a t ih =>
    cases i with
    | zero => rfl
    | succ j => exact ih j (by simpa using h)

theorem getD_append_at_length {α : Type _} (l : List α) (x d : α) :
    (l ++ [x]).getD l.length d = x := by
  induction l with
  | nil => rfl
  | cons a t ih => exact ih

theorem getD_append_at_length' {α : Type _} (l : List α) (x d : α) (i : Nat)
    (h : i = l.length) : (l ++ [x]).getD i d = x := by
  subst h; exact getD_append_at_length l x d

/-- Well-formedness of a call-node `prefix` column: every entry is either
the root sentinel `-1` or the index of a strictly earlier row (the
parent-before-child invariant of the call-node table). -/
def PrefixWellFormed (prefixCol : List Int) : Prop :=
  ∀ i < prefixCol.length,
    prefixCol.getD i (-1) = -1 ∨
      (0 ≤ prefixCol.getD i (-1) ∧ prefixCol.getD i (-1) < (i : ℤ))

instance (prefixCol : List Int) : Decidable (PrefixWellFormed prefixCol) :=
  inferInstanceAs (Decidable (∀ i < prefixCol.length, _ ∨ _))

theorem callNodeToRootAux_succ (prefixCol : List Int) (n : Nat) :
    callNodeToRootAux prefixCol (n + 1)
      = callNodeToRootAux prefixCol n ++
        [if prefixCol.getD n (-1) = -1 then n
         else (callNodeToRootAux prefixCol n).getD
           (prefixCol.getD n (-1)).toNat 0] := by
  simp [callNodeToRootAux, List.range_succ]

theorem length_callNodeToRootAux (prefixCol : List Int) (n : Nat) :
    (callNodeToRootAux prefixCol n).length = n := by
  induction n with
  | zero => rfl
  | succ m ih => rw [callNodeToRootAux_succ]; simp [ih]

/-- The root map is monotone-bounded and lands on roots: entry `j` is at
most `j` and its prefix is the root sentinel. -/
theorem callNodeToRootAux_spec (prefixCol : List Int)
    (hWF : PrefixWellFormed prefixCol) :
    ∀ n, n ≤ prefixCol.length → ∀ j, j < n →
      (callNodeToRootAux prefixCol n).getD j 0 ≤ j ∧
      prefixCol.getD ((callNodeToRootAux prefixCol n).getD j 0) (-1) = -1 := by
  intro n
  induction n with
  | zero => intro _ j hj; exact absurd hj (Nat.not_lt_zero j)
  | succ m ih =>
    intro hle j hj
    rw [callNodeToRootAux_succ]
    by_cases hjm : j < m
    · rw [getD_append_left' _ _ j 0
        (by rw [length_callNodeToRootAux]; exact hjm)]
      exact ih (Nat.le_of_succ_le hle) j hjm
    · have hjeq : j = m := by omega
      subst hjeq
      rw [getD_append_at_length' _ _ _ j
        (length_callNodeToRootAux prefixCol j).symm]
      by_cases hp : prefixCol.getD j (-1) = -1
      · rw [if_pos hp]
        exact ⟨le_refl j, hp⟩
      · rcases hWF j (by omega) with h | ⟨hp0, hplt⟩
        · exact absurd h hp
        · have hptn : (prefixCol.getD j (-1)).toNat < j := by omega
          have := ih (Nat.le_of_succ_le hle) (prefixCol.getD j (-1)).toNat
            hptn
          rw [if_neg hp]
          exact ⟨le_trans this.1 (le_of_lt hptn), this.2⟩

/-- Every entry of the root map points at a root call node. -/
theorem callNodeToRoot_isRoot (prefixCol : List Int)
    (hWF : PrefixWellFormed prefixCol) (cn : Nat)
    (hcn : cn < prefixCol.length) :
    prefixCol.getD ((callNodeToRoot prefixCol).getD cn 0) (-1) = -1 :=
  (callNodeToRootAux_spec prefixCol hWF prefixCol.length le_rfl cn hcn).2

/-- Mapping the stack entries through the stack-to-call-node map keeps the
non-null positions, and therefore the weight sum over non-null entries. -/
theorem someWeightSum_map_zip (g : Nat → Nat)
    (sampleStacks : List (Option Nat)) (ws : List ℤ) :
    someWeightSum ((sampleStacks.map (Option.map g)).zip ws)
      = someWeightSum (sampleStacks.zip ws) := by
  induction sampleStacks generalizing ws with
  | nil => rfl
  | cons s t ih =>
    cases ws with
    | nil => rfl
    | cons w ws' =>
      cases s with
      | none => simpa [someWeightSum] using ih ws'
      | some v => simpa [someWeightSum] using ih ws'

/-- The sum of the sample weights over the samples whose stack is non-null. -/
def nonNullStackWeightSum (samples : SamplesLikeTable) : ℤ :=
  someWeightSum (samples.stack.zip (sampleWeights samples))

/-- C4: for every samples-like table and call-node mapping (under the
parent-before-child well-formedness of the prefix column and in-range
stack-to-call-node images), the un-inverted `callNodeSelf` array sums to the
total weight over non-null-stack samples; in inverted mode the same equality
holds for the `callNodeLeaf` array, and the inverted `callNodeSelf` is zero
at every non-root call node (all self weight is attributed to roots). -/
theorem aggregator_weight_conservation (samples : SamplesLikeTable)
    (prefixCol : List Int) (stackIndexToCallNodeIndex : List Nat)
    (hWF : PrefixWellFormed prefixCol)
    (hrange : ∀ s : Nat, some s ∈ samples.stack →
      stackIndexToCallNodeIndex.getD s 0 < prefixCol.length) :
    (_getStackSelf samples prefixCol.length
        (getSampleIndexToCallNodeIndex samples.stack
          stackIndexToCallNodeIndex)).sum
      = nonNullStackWeightSum samples
    ∧ (_getInvertedStackSelf samples prefixCol
        (getSampleIndexToCallNodeIndex samples.stack
          stackIndexToCallNodeIndex)).2.sum
      = nonNullStackWeightSum samples
    ∧ ∀ j : Nat, prefixCol.getD j (-1) ≠ -1 →
        (_getInvertedStackSelf samples prefixCol
          (getSampleIndexToCallNodeIndex samples.stack
            stackIndexToCallNodeIndex)).1.getD j 0 = 0 := by
  have hmem : ∀ e ∈ (getSampleIndexToCallNodeIndex samples.stack
      stackIndexToCallNodeIndex).zip (sampleWeights samples),
      ∀ cn, e.1 = some cn → cn < prefixCol.length := by
    intro e he cn hcn
    have h1 : e.1 ∈ getSampleIndexToCallNodeIndex samples.stack
        stackIndexToCallNodeIndex := (List.of_mem_zip he).1
    rw [getSampleIndexToCallNodeIndex, List.mem_map] at h1
    obtain ⟨st, hst, hmap⟩ := h1
    rw [hcn, Option.map_eq_some'] at hmap
    obtain ⟨s, hs, hgs⟩ := hmap
    subst hs
    rw [← hgs]
    exact hrange s hst
  refine ⟨?_, ?_, ?_⟩
  · rw [_getStackSelf, accumulateAtTargets,
      sum_accumulateStep_fold id _ _
        (fun e he cn hcn => by
          rw [List.length_replicate]
          exact hmem e he cn hcn)]
    simp [someWeightSum_map_zip, nonNullStackWeightSum,
      getSampleIndexToCallNodeIndex]
  · show (accumulateAtTargets id prefixCol.length _).sum = _
    rw [accumulateAtTargets,
      sum_accumulateStep_fold id _ _
        (fun e he cn hcn => by
          rw [List.length_replicate]
          exact hmem e he cn hcn)]
    simp [someWeightSum_map_zip, nonNullStackWeightSum,
      getSampleIndexToCallNodeIndex]
  · intro j hj
    show (accumulateAtTargets
      (fun cn => (callNodeToRoot prefixCol).getD cn 0)
      prefixCol.length _).getD j 0 = 0
    rw [accumulateAtTargets, getD_accumulateStep_fold_untouched _ _ _ _
      (fun e he cn hcn hcontra => by
        have hroot := callNodeToRoot_isRoot prefixCol hWF cn
          (hmem e he cn hcn)
        rw [hcontra] at hroot
        exact hj hroot)]
    exact getD_replicate_zero _ _

/-- Witness for `aggregator_weight_conservation`: 3 samples with weights
2, 5, 3, the middle one with a null stack, over the two-node call tree
`0 ← 1`. -/
theorem aggregator_weight_conservation_witness :
    (_getStackSelf ⟨[some 0, none, some 1], some [2, 5, 3]⟩ 2
        (getSampleIndexToCallNodeIndex [some 0, none, some 1] [0, 1])).sum
      = nonNullStackWeightSum ⟨[some 0, none, some 1], some [2, 5, 3]⟩
    ∧ (_getInvertedStackSelf ⟨[some 0, none, some 1], some [2, 5, 3]⟩ [-1, 0]
        (getSampleIndexToCallNodeIndex [some 0, none, some 1] [0, 1])).2.sum
      = nonNullStackWeightSum ⟨[some 0, none, some 1], some [2, 5, 3]⟩
    ∧ (_getInvertedStackSelf ⟨[some 0, none, some 1], some [2, 5, 3]⟩ [-1, 0]
        (getSampleIndexToCallNodeIndex [some 0, none, some 1] [0, 1])).1.getD
        1 0 = 0 := by
  have h := aggregator_weight_conservation
    ⟨[some 0, none, some 1], some [2, 5, 3]⟩ [-1, 0] [0, 1]
    (by decide)
    (by
      intro s hs
      simp only [SamplesLikeTable.stack] at hs
      rcases List.mem_cons.1 hs with h1 | hs
      · cases h1; decide
      rcases List.mem_cons.1 hs with h1 | hs
      · exact absurd h1 (by simp)
      rcases List.mem_cons.1 hs with h1 | hs
      · cases Option.some.inj h1; decide
      · exact absurd hs (List.not_mem_nil _))
  exact ⟨h.1, h.2.1, h.2.2 1 (by decide)⟩

/-! ## C5: children enumeration and ordering -/

/-- The total preorder on total values induced by the children comparator:
`x` may come (weakly) before `y` exactly when `cmp x y ≤ 0`. -/
def childValueLE (x y : ℤ) : Prop :=
  |y| < |x| ∨ (|x| = |y| ∧ ¬(x < 0 ∧ 0 < y))

theorem childValueLE_total (x y : ℤ) : childValueLE x y ∨ childValueLE y x := by
  unfold childValueLE
  rcases abs_cases x with ⟨hx, hx'⟩ | ⟨hx, hx'⟩ <;>
    rcases abs_cases y with ⟨hy, hy'⟩ | ⟨hy, hy'⟩ <;>
    rw [hx, hy] <;> omega

theorem childValueLE_trans (x y z : ℤ) (hxy : childValueLE x y)
    (hyz : childValueLE y z) : childValueLE x z := by
  unfold childValueLE at *
  rcases abs_cases x with ⟨hx, hx'⟩ | ⟨hx, hx'⟩ <;>
    rcases abs_cases y with ⟨hy, hy'⟩ | ⟨hy, hy'⟩ <;>
    rcases abs_cases z with ⟨hz, hz'⟩ | ⟨hz, hz'⟩ <;>
    rw [hx, hy] at hxy <;> rw [hy, hz] at hyz <;> rw [hx, hz] <;> omega

/-- The comparator of `CallTree.getChildren` orders `a` (weakly) before `b`
exactly when `childValueLE` holds of their totals. -/
theorem cmpChildren_le_iff (total : List ℤ) (a b : Nat) :
    cmpChildren total a b ≤ 0
      ↔ childValueLE (total.getD a 0) (total.getD b 0) := by
  unfold cmpChildren childValueLE
  rcases abs_cases (total.getD a 0) with ⟨hx, hx'⟩ | ⟨hx, hx'⟩ <;>
    rcases abs_cases (total.getD b 0) with ⟨hy, hy'⟩ | ⟨hy, hy'⟩ <;>
    rw [hx, hy] <;> split_ifs with h1 h2 <;> omega

/-- `childValueLE` implies the ordering stated by the specification:
non-increasing absolute total, and at equal magnitude never a negative value
before a positive one. -/
theorem childValueLE_spec_shape (x y : ℤ) (h : childValueLE x y) :
    |y| ≤ |x| ∧ (|x| = |y| → ¬(x < 0 ∧ 0 < y)) := by
  unfold childValueLE at h
  rcases h with h | ⟨h1, h2⟩
  · exact ⟨le_of_lt h, fun he => absurd (he ▸ h) (lt_irrefl _)⟩
  · exact ⟨le_of_eq h1.symm, fun _ => h2⟩

/-- The scan loop of `getChildren` collects, in index order, the first
`needed` visible children at or after index `i`. -/
theorem collectChildrenGo_eq (prefixCol : List Int) (total : List ℤ)
    (childCount : List Nat) (node : Int) :
    ∀ fuel i needed, prefixCol.length ≤ fuel + i →
      collectChildrenGo prefixCol total childCount node fuel i needed
        = ((List.range' i (prefixCol.length - i)).filter
            (fun k => decide (prefixCol.getD k (-1) = node ∧
              (total.getD k 0 ≠ 0 ∨ childCount.getD k 0 ≠ 0)))).take needed := by
  intro fuel
  induction fuel with
  | zero =>
    intro i needed hle
    have h0 : prefixCol.length - i = 0 := by omega
    rw [h0]
    simp [collectChildrenGo]
  | succ f ih =>
    intro i needed hle
    by_cases hi : i < prefixCol.length
    · have hspan : prefixCol.length - i = (prefixCol.length - (i + 1)) + 1 := by
        omega
      rw [hspan, List.range'_succ]
      cases needed with
      | zero => simp [collectChildrenGo, hi]
      | succ nd =>
        by_cases hmatch : prefixCol.getD i (-1) = node ∧
            (total.getD i 0 ≠ 0 ∨ childCount.getD i 0 ≠ 0)
        · simp only [collectChildrenGo, if_pos hi]
          rw [if_neg (Nat.succ_ne_zero nd), if_pos hmatch,
            List.filter_cons, if_pos (by simpa using hmatch),
            List.take_succ_cons, Nat.succ_sub_one,
            ih (i + 1) nd (by omega)]
        · simp only [collectChildrenGo, if_pos hi]
          rw [if_neg (Nat.succ_ne_zero nd), if_neg hmatch,
            List.filter_cons, if_neg (by simpa using hmatch),
            ih (i + 1) (nd + 1) (by omega)]
    · have h0 : prefixCol.length - i = 0 := by omega
      rw [h0]
      simp [collectChildrenGo, hi]

/-- Filtering a predicate that fails below `s` over `range' s (n - s)` is the
same as filtering it over `range n`. -/
theorem filter_range'_of_below_false (P : Nat → Bool) (s n : Nat)
    (hbelow : ∀ k < s, ¬P k = true) :
    (List.range' s (n - s)).filter P = (List.range n).filter P := by
  by_cases hs : s ≤ n
  · rw [List.range_eq_range']
    have happ := List.range'_append 0 s (n - s) 1
    simp only [Nat.zero_add, Nat.one_mul] at happ
    rw [Nat.sub_add_cancel hs] at happ
    rw [← happ, List.filter_append]
    have hnil : (List.range' 0 s).filter P = [] :=
      List.filter_eq_nil_iff.2 (fun a ha => by
        have halt : a < s := by
          have := List.mem_range'_1.1 ha
          omega
        exact hbelow a halt)
    rw [hnil, List.nil_append]
  · have h1 : n - s = 0 := by omega
    rw [h1]
    have h2 : (List.range n).filter P = [] :=
      List.filter_eq_nil_iff.2 (fun a ha => by
        have : a < n := List.mem_range.1 ha
        exact hbelow a (by omega))
    rw [h2]
    rfl

/-- C5: for a call node `node` of a well-formed call-node table whose child
count is consistent with the summary (it equals the number of rows whose
prefix is `node` and whose total or child count is non-zero),
`CallTree.getChildren` returns exactly those rows, ordered with
non-increasing absolute total, and at equal magnitude never placing a
negative total before a positive one. As a Lean function the result is
deterministic by construction. -/
theorem getChildren_spec (prefixCol : List Int) (total : List ℤ)
    (childCount : List Nat) (rootCount : Nat) (node : Nat)
    (hWF : PrefixWellFormed prefixCol)
    (hCnt : childCount.getD node 0
      = (((List.range prefixCol.length).filter
          (fun k => decide (prefixCol.getD k (-1) = (node : Int) ∧
            (total.getD k 0 ≠ 0 ∨ childCount.getD k 0 ≠ 0))))).length) :
    (∀ j : Nat,
      j ∈ getChildren prefixCol total childCount rootCount (node : Int)
        ↔ (j < prefixCol.length ∧ prefixCol.getD j (-1) = (node : Int) ∧
            (total.getD j 0 ≠ 0 ∨ childCount.getD j 0 ≠ 0)))
    ∧ List.Pairwise
        (fun a b => |total.getD b 0| ≤ |total.getD a 0| ∧
          (|total.getD a 0| = |total.getD b 0| →
            ¬(total.getD a 0 < 0 ∧ 0 < total.getD b 0)))
        (getChildren prefixCol total childCount rootCount (node : Int)) := by
  have hne : ((node : Int) = -1) = False := by
    simp only [eq_iff_iff, iff_false]
    omega
  have htoNat : ((node : Int)).toNat = node := Int.toNat_natCast node
  have hstart : (((node : Int)) + 1).toNat = node + 1 := by omega
  have hcollected :
      collectChildrenGo prefixCol total childCount (node : Int)
        prefixCol.length (node + 1) (childCount.getD node 0)
      = (List.range prefixCol.length).filter
          (fun k => decide (prefixCol.getD k (-1) = (node : Int) ∧
            (total.getD k 0 ≠ 0 ∨ childCount.getD k 0 ≠ 0))) := by
    rw [collectChildrenGo_eq prefixCol total childCount (node : Int)
      prefixCol.length (node + 1) (childCount.getD node 0) (by omega)]
    rw [filter_range'_of_below_false _ (node + 1) prefixCol.length
      (fun k hk => by
        simp only [decide_eq_true_eq, not_and, not_or, not_not]
        intro hpref
        rcases hWF k (by
          by_contra hlen
          push_neg at hlen
          have : prefixCol.getD k (-1) = -1 := by
            unfold List.getD
            rw [List.get?_eq_getElem?, List.getElem?_eq_none (by omega)]
            rfl
          omega) with h | ⟨h0, hlt⟩
        · rw [hpref] at h; omega
        · rw [hpref] at hlt
          omega)]
    rw [hCnt, List.take_length]
  have hunfold : getChildren prefixCol total childCount rootCount (node : Int)
      = List.insertionSort (fun a b => cmpChildren total a b ≤ 0)
          ((List.range prefixCol.length).filter
            (fun k => decide (prefixCol.getD k (-1) = (node : Int) ∧
              (total.getD k 0 ≠ 0 ∨ childCount.getD k 0 ≠ 0)))) := by
    unfold getChildren
    rw [← hcollected]
    simp only [hne, if_false, htoNat, hstart]
  haveI hTot : IsTotal Nat (fun a b => cmpChildren total a b ≤ 0) :=
    ⟨fun a b => by
      rw [cmpChildren_le_iff, cmpChildren_le_iff]
      exact childValueLE_total _ _⟩
  haveI hTrans : IsTrans Nat (fun a b => cmpChildren total a b ≤ 0) :=
    ⟨fun a b c hab hbc => by
      rw [cmpChildren_le_iff] at hab hbc ⊢
      exact childValueLE_trans _ _ _ hab hbc⟩
  constructor
  · intro j
    rw [hunfold, List.mem_insertionSort, List.mem_filter, List.mem_range,
      decide_eq_true_eq]
  · rw [hunfold]
    have hsorted := List.sorted_insertionSort
      (fun a b => cmpChildren total a b ≤ 0)
      ((List.range prefixCol.length).filter
        (fun k => decide (prefixCol.getD k (-1) = (node : Int) ∧
          (total.getD k 0 ≠ 0 ∨ childCount.getD k 0 ≠ 0))))
    exact List.Pairwise.imp
      (fun hab => childValueLE_spec_shape _ _ ((cmpChildren_le_iff total _ _).1 hab))
      hsorted

/-- Witness for `getChildren_spec`: the table `0 ← {1, 2, 3}` with totals
`5, -5, 2`: node 0's children are `1, 2, 3` — the positive 5 before the
negative -5 of equal magnitude, then 2. -/
theorem getChildren_spec_witness :
    (2 ∈ getChildren [-1, 0, 0, 0] [0, 5, -5, 2] [3, 0, 0, 0] 7 ((0 : Nat) : Int))
    ∧ List.Pairwise
        (fun a b => |[(0 : ℤ), 5, -5, 2].getD b 0| ≤ |[(0 : ℤ), 5, -5, 2].getD a 0| ∧
          (|[(0 : ℤ), 5, -5, 2].getD a 0| = |[(0 : ℤ), 5, -5, 2].getD b 0| →
            ¬([(0 : ℤ), 5, -5, 2].getD a 0 < 0 ∧ 0 < [(0 : ℤ), 5, -5, 2].getD b 0)))
        (getChildren [-1, 0, 0, 0] [0, 5, -5, 2] [3, 0, 0, 0] 7 ((0 : Nat) : Int)) := by
  have h := getChildren_spec [-1, 0, 0, 0] [0, 5, -5, 2] [3, 0, 0, 0] 7 0
    (by decide) (by decide)
  exact ⟨(h.1 2).2 (by decide), h.2⟩

/-! ## C7: symbolication-driven func substitution (symbolication.ts)

A `FuncToFuncsMap` (a JS `Map` from old func to an ordered list of new
funcs) is modelled by its lookup function `Nat → Option (List Nat)`; a
`PathSet` is modelled as the list of its paths. -/

/-- Embedding of `applyFuncSubstitutionToCallPath` (symbolication.ts): the
`reduce` over the path that replaces each func found in the map by its list
of new funcs and passes every other func through unchanged. -/
def applyFuncSubstitutionToCallPath (map : Nat → Option (List Nat))
    (path : List Nat) : List Nat :=
  path.foldl
    (fun accum oldFunc =>
      match map oldFunc with
      | none => accum ++ [oldFunc]
      | some newFuncs => accum ++ newFuncs)
    []

/-- The per-path block pushed by one iteration of the loop of
`applyFuncSubstitutionToPathSetAndIncludeNewAncestors`: the substituted path
first, then — when the old leaf expanded into `m > 1` funcs — the `m - 1`
proper-prefix ancestors `newCallPath.slice(0, newCallPath.length - i)` for
`i = 1 .. m-1`. An empty path has no leaf (`callPath[-1]` is undefined in
the source, which the map lookup misses), so it contributes no ancestors. -/
def substitutedWithAncestors (map : Nat → Option (List Nat))
    (callPath : List Nat) : List (List Nat) :=
  let newCallPath := applyFuncSubstitutionToCallPath map callPath
  match callPath.getLast? with
  | none => [newCallPath]
  | some oldLeaf =>
    let mappedOldLeaf := applyFuncSubstitutionToCallPath map [oldLeaf]
    if 1 < mappedOldLeaf.length then
      newCallPath :: (List.range' 1 (mappedOldLeaf.length - 1)).map
        (fun i => newCallPath.take (newCallPath.length - i))
    else [newCallPath]

/-- Embedding of `applyFuncSubstitutionToPathSetAndIncludeNewAncestors`
(symbolication.ts): the loop over the path set, each iteration pushing the
block of `substitutedWithAncestors`. -/
def applyFuncSubstitutionToPathSetAndIncludeNewAncestors
    (map : Nat → Option (List Nat)) (pathSet : List (List Nat)) :
    List (List Nat) :=
  pathSet.foldl
    (fun newPathSet callPath =>
      newPathSet ++ substitutedWithAncestors map callPath)
    []

theorem foldl_append_blocks {α β : Type _} (g : α → List β) :
    ∀ (l : List α) (acc : List β),
      l.foldl (fun a x => a ++ g x) acc = acc ++ l.flatMap g := by
  intro l
  induction l with
  | nil => intro acc; simp
  | cons x t ih =>
    intro acc
    rw [List.foldl_cons, ih (acc ++ g x), List.flatMap_cons, List.append_assoc]

/-- C7: `applyFuncSubstitutionToCallPath` replaces, left to right, every
func that is a key of the map by its ordered list of new funcs and passes
the others through unchanged (it is the `bind` of the per-func
substitution); `applyFuncSubstitutionToPathSetAndIncludeNewAncestors`
emits, for each path of the set, its substituted path plus the
proper-prefix ancestors introduced by a one-to-many expansion of the path's
leaf func. In particular, with the map `7 ↦ [7, 9]`, the path `[1, 7, 3]`
becomes `[1, 7, 9, 3]` and the path set `{[1, 7]}` becomes
`{[1, 7, 9], [1, 7]}`. -/
theorem func_substitution_spec :
    (∀ (map : Nat → Option (List Nat)) (path : List Nat),
      applyFuncSubstitutionToCallPath map path
        = path.flatMap (fun f => (map f).getD [f]))
    ∧ (∀ (map : Nat → Option (List Nat)) (pathSet : List (List Nat)),
      applyFuncSubstitutionToPathSetAndIncludeNewAncestors map pathSet
        = pathSet.flatMap (substitutedWithAncestors map))
    ∧ applyFuncSubstitutionToCallPath
        (fun f => if f = 7 then some [7, 9] else none) [1, 7, 3]
      = [1, 7, 9, 3]
    ∧ applyFuncSubstitutionToPathSetAndIncludeNewAncestors
        (fun f => if f = 7 then some [7, 9] else none) [[1, 7]]
      = [[1, 7, 9], [1, 7]] := by
  refine ⟨?_, ?_, by decide, by decide⟩
  · intro map path
    unfold applyFuncSubstitutionToCallPath
    have : ∀ (l : List Nat) (acc : List Nat),
        l.foldl
          (fun accum oldFunc =>
            match map oldFunc with
            | none => accum ++ [oldFunc]
            | some newFuncs => accum ++ newFuncs)
          acc = acc ++ l.flatMap (fun f => (map f).getD [f]) := by
      intro l
      induction l with
      | nil => intro acc; simp
      | cons x t ih =>
        intro acc
        rw [List.foldl_cons, List.flatMap_cons]
        cases hm : map x with
        | none => rw [ih]; simp [hm, List.append_assoc]
        | some newFuncs => rw [ih]; simp [hm, List.append_assoc]
    simpa using this path []
  · intro map pathSet
    unfold applyFuncSubstitutionToPathSetAndIncludeNewAncestors
    simpa using foldl_append_blocks (substitutedWithAncestors map) pathSet []

/-! ## C8: diff correspondence (selectors/per-thread, comparison table)

`getCallNodeIndexToCompareCallNodeIndexTable` walks both call-node tables in
index order computing a rolling hash per node —
`cyrb53(`${prefixPath}${libName}`)` where `prefixPath` is the parent's hash
(0 for roots, via `?? 0` on the `fill(0)` array) and `libName` the node's
file-name annotation — builds a last-writer-wins `hash → compareIndex`
record over the compare tree, then probes it for every selected node,
`set`ting an entry for every selected index (possibly with an undefined
value). The `cyrb53` hash itself and `_getFileNameAnnotation` are not part
of the analyzed source, so the construction is embedded generically over a
hash function `String → Nat` and per-node annotation strings. -/

/-- Modelled from the spec: `cyrb53` (utils/hash) is not part of the
analyzed source; the spec describes it as a string hash with a large output
space. Modelled as a 53-bit polynomial string hash, used only to
instantiate the hash-generic theorems on concrete inputs. -/
def cyrb53Model (s : String) : Nat :=
  s.data.foldl (fun h c => (h * 131 + c.toNat) % 2 ^ 53) 0

/-- The rolling per-node hashes of one call-node table, stopped after the
first `n` nodes: `hash(toString(parentHash) ++ annotation)`, parent hash 0
for roots. -/
def prefixPathHashesAux (hash : String → Nat) (prefixCol : List Int)
    (ann : List String) (n : Nat) : List Nat :=
  (List.range n).foldl
    (fun acc i =>
      let p := prefixCol.getD i (-1)
      let prefixPath := if p < 0 then 0 else acc.getD p.toNat 0
      acc ++ [hash (toString prefixPath ++ ann.getD i "")])
    []

/-- The rolling per-node hashes of one call-node table. -/
def prefixPathHashes (hash : String → Nat) (prefixCol : List Int)
    (ann : List String) : List Nat :=
  prefixPathHashesAux hash prefixCol ann prefixCol.length

/-- The `hash → compareCallNodeIndex` record built over the first `n`
compare nodes in index order, later writers overwriting earlier ones. -/
def buildHashCacheAux (hashes : List Nat) (n : Nat) : Nat → Option Nat :=
  (List.range n).foldl
    (fun cache i => fun h => if h = hashes.getD i 0 then some i else cache h)
    (fun _ => none)

/-- The `hash → compareCallNodeIndex` record of the compare tree. -/
def buildHashCache (hashes : List Nat) : Nat → Option Nat :=
  buildHashCacheAux hashes hashes.length

/-- Embedding of `getCallNodeIndexToCompareCallNodeIndexTable`
(selectors/per-thread): the resulting JS `Map`, as its list of
(selectedIndex, compare-index-or-undefined) entries in insertion order.
Note the source calls `.set` for every selected index, also when the probe
returns `undefined`. -/
def getCallNodeIndexToCompareCallNodeIndexTable (hash : String → Nat)
    (comparePrefixCol : List Int) (compareAnn : List String)
    (selectedPrefixCol : List Int) (selectedAnn : List String) :
    List (Nat × Option Nat) :=
  let compareHashes := prefixPathHashes hash comparePrefixCol compareAnn
  let cache := buildHashCache compareHashes
  let selectedHashes := prefixPathHashes hash selectedPrefixCol selectedAnn
  (List.range selectedPrefixCol.length).map
    (fun i => (i, cache (selectedHashes.getD i 0)))

theorem buildHashCacheAux_succ (hashes : List Nat) (n : Nat) (h : Nat) :
    buildHashCacheAux hashes (n + 1) h
      = if h = hashes.getD n 0 then some n else buildHashCacheAux hashes n h := by
  simp [buildHashCacheAux, List.range_succ]

/-- The cache misses exactly the hashes carried by no node, and a hit
returns the last node in index order carrying the hash. -/
theorem buildHashCacheAux_spec (hashes : List Nat) :
    ∀ n h,
      (buildHashCacheAux hashes n h = none ↔ ∀ i < n, hashes.getD i 0 ≠ h)
      ∧ (∀ c, buildHashCacheAux hashes n h = some c →
          c < n ∧ hashes.getD c 0 = h ∧
            ∀ i, c < i → i < n → hashes.getD i 0 ≠ h) := by
  intro n
  induction n with
  | zero =>
    intro h
    constructor
    · constructor
      · intro _ i hi; exact absurd hi (Nat.not_lt_zero i)
      · intro _; rfl
    · intro c hc; exact absurd hc (by simp [buildHashCacheAux])
  | succ m ih =>
    intro h
    rw [buildHashCacheAux_succ]
    by_cases heq : h = hashes.getD m 0
    · rw [if_pos heq]
      constructor
      · constructor
        · intro hcontra; exact absurd hcontra (by simp)
        · intro hall; exact absurd heq.symm (hall m (Nat.lt_succ_self m))
      · intro c hc
        cases Option.some.inj hc
        exact ⟨Nat.lt_succ_self m, heq.symm, fun i hmi him _ => by omega⟩
    · rw [if_neg heq]
      constructor
      · rw [(ih h).1]
        constructor
        · intro hall i him
          rcases Nat.lt_succ_iff_lt_or_eq.1 him with hlt | heqi
          · exact hall i hlt
          · subst heqi; exact fun hcon => heq hcon.symm
        · intro hall i hi; exact hall i (Nat.lt_succ_of_lt hi)
      · intro c hc
        obtain ⟨hcm, hch, hafter⟩ := (ih h).2 c hc
        refine ⟨Nat.lt_succ_of_lt hcm, hch, ?_⟩
        intro i hci him
        rcases Nat.lt_succ_iff_lt_or_eq.1 him with hlt | heqi
        · exact hafter i hci hlt
        · subst heqi; exact fun hcon => heq hcon.symm

theorem length_prefixPathHashesAux (hash : String → Nat)
    (prefixCol : List Int) (ann : List String) (n : Nat) :
    (prefixPathHashesAux hash prefixCol ann n).length = n := by
  induction n with
  | zero => rfl
  | succ m ih =>
    have : prefixPathHashesAux hash prefixCol ann (m + 1)
        = prefixPathHashesAux hash prefixCol ann m ++
          [hash (toString (if prefixCol.getD m (-1) < 0 then 0
              else (prefixPathHashesAux hash prefixCol ann m).getD
                (prefixCol.getD m (-1)).toNat 0)
            ++ ann.getD m "")] := by
      simp [prefixPathHashesAux, List.range_succ]
    rw [this]
    simp [ih]

/-- C8 (amended): for every hash function, every selected call node `i` has
exactly one entry in the correspondence table; its value is `undefined`
exactly when no compare node carries an equal rolling hash, and otherwise
it is the last (highest-index) compare node whose rolling hash equals the
selected node's. -/
theorem diff_correspondence_spec (hash : String → Nat)
    (comparePrefixCol : List Int) (compareAnn : List String)
    (selectedPrefixCol : List Int) (selectedAnn : List String) (i : Nat)
    (hi : i < selectedPrefixCol.length) :
    ∃ v,
      (i, v) ∈ getCallNodeIndexToCompareCallNodeIndexTable hash
        comparePrefixCol compareAnn selectedPrefixCol selectedAnn
      ∧ (∀ w, (i, w) ∈ getCallNodeIndexToCompareCallNodeIndexTable hash
          comparePrefixCol compareAnn selectedPrefixCol selectedAnn → w = v)
      ∧ (v = none ↔ ∀ c < comparePrefixCol.length,
          (prefixPathHashes hash comparePrefixCol compareAnn).getD c 0
            ≠ (prefixPathHashes hash selectedPrefixCol selectedAnn).getD i 0)
      ∧ (∀ c, v = some c →
          c < comparePrefixCol.length ∧
          (prefixPathHashes hash comparePrefixCol compareAnn).getD c 0
            = (prefixPathHashes hash selectedPrefixCol selectedAnn).getD i 0 ∧
          ∀ j, c < j → j < comparePrefixCol.length →
            (prefixPathHashes hash comparePrefixCol compareAnn).getD j 0
              ≠ (prefixPathHashes hash selectedPrefixCol selectedAnn).getD
                  i 0) := by
  set cH := prefixPathHashes hash comparePrefixCol compareAnn with hcH
  set sH := prefixPathHashes hash selectedPrefixCol selectedAnn with hsH
  have hlen : cH.length = comparePrefixCol.length :=
    length_prefixPathHashesAux hash comparePrefixCol compareAnn _
  have hmem : ∀ w, (i, w) ∈ getCallNodeIndexToCompareCallNodeIndexTable hash
      comparePrefixCol compareAnn selectedPrefixCol selectedAnn
      ↔ w = buildHashCache cH (sH.getD i 0) ∧ i < selectedPrefixCol.length := by
    intro w
    unfold getCallNodeIndexToCompareCallNodeIndexTable
    rw [List.mem_map]
    constructor
    · rintro ⟨j, hj, hpair⟩
      obtain ⟨h1, h2⟩ := Prod.mk.injEq .. ▸ hpair
      cases h1
      exact ⟨h2.symm, List.mem_range.1 hj⟩
    · rintro ⟨hw, hilen⟩
      exact ⟨i, List.mem_range.2 hilen, by rw [hw]⟩
  refine ⟨buildHashCache cH (sH.getD i 0), (hmem _).2 ⟨rfl, hi⟩,
    fun w hw => ((hmem w).1 hw).1, ?_, ?_⟩
  · rw [show buildHashCache cH = buildHashCacheAux cH cH.length from rfl,
      (buildHashCacheAux_spec cH cH.length (sH.getD i 0)).1, hlen]
  · intro c hc
    obtain ⟨h1, h2, h3⟩ :=
      (buildHashCacheAux_spec cH cH.length (sH.getD i 0)).2 c hc
    exact ⟨hlen ▸ h1, h2, fun j hcj hjlen => h3 j hcj (hlen ▸ hjlen)⟩

/-- C8 (counterexample to the claim as stated): a selected call node with no
equal-hash compare node still has an entry in the map — the source `set`s
the key with an `undefined` value. Here the selected tree is a single root
annotated `X`, the compare tree a single root annotated `Y`, their hashes
differ, and yet `(0, undefined)` is an entry of the table. -/
theorem diff_correspondence_undefined_entry_counterexample :
    (0, (none : Option Nat)) ∈ getCallNodeIndexToCompareCallNodeIndexTable
      cyrb53Model [-1] ["Y"] [-1] ["X"]
    ∧ ∀ c < 1,
        (prefixPathHashes cyrb53Model [-1] ["Y"]).getD c 0
          ≠ (prefixPathHashes cyrb53Model [-1] ["X"]).getD 0 0 := by
  decide

/-- Witness for `diff_correspondence_spec`: a compare tree with two roots
both annotated `Y` (equal rolling hashes), probed by a selected root
annotated `Y`: the entry maps to compare node 1 — the last of the two in
index order — and the hashes agree. -/
theorem diff_correspondence_spec_witness :
    (0, some 1) ∈ getCallNodeIndexToCompareCallNodeIndexTable cyrb53Model
      [-1, -1] ["Y", "Y"] [-1] ["Y"]
    ∧ (prefixPathHashes cyrb53Model [-1, -1] ["Y", "Y"]).getD 1 0
        = (prefixPathHashes cyrb53Model [-1] ["Y"]).getD 0 0 := by
  obtain ⟨v, hv, huniq, hnone, hsome⟩ := diff_correspondence_spec cyrb53Model
    [-1, -1] ["Y", "Y"] [-1] ["Y"] 0 (by decide)
  have h1 : (0, some 1) ∈ getCallNodeIndexToCompareCallNodeIndexTable
      cyrb53Model [-1, -1] ["Y", "Y"] [-1] ["Y"] := by decide
  have hv1 : v = some 1 := (huniq (some 1) h1).symm
  exact ⟨h1, (hsome 1 hv1).2.1⟩

/-! ## C6/C9: the transform-stack string codec (profile-logic/transforms.ts)

JS strings are modelled as `List Char`; `String.prototype.split` on a
single-character separator is `List.splitOn`, and `Array.prototype.join` is
`List.intercalate`. -/

/-- The implementation filter tag (`combined | js | cpp`). -/
inductive ImplementationFilter where
  | combined
  | js
  | cpp
deriving DecidableEq, Repr

/-- The tagged union of the 10 transform variants, each carrying the fields
its URL encoding stores. All numeric fields decoded by `parseTransforms` are
non-negative (the `-` separator cannot yield a negative numeral), so they
are `Nat`. -/
inductive Transform where
  | focusSubtree (implementation : ImplementationFilter)
      (callNodePath : List Nat) (inverted : Bool)
  | focusFunction (funcIndex : Nat)
  | focusCategory (category : Nat)
  | mergeCallNode (implementation : ImplementationFilter)
      (callNodePath : List Nat)
  | mergeFunction (funcIndex : Nat)
  | dropFunction (funcIndex : Nat)
  | collapseResource (implementation : ImplementationFilter)
      (resourceIndex : Nat) (collapsedFuncIndex : Nat)
  | collapseDirectRecursion (implementation : ImplementationFilter)
      (funcIndex : Nat)
  | collapseIndirectRecursion (implementation : ImplementationFilter)
      (funcIndex : Nat)
  | collapseFunctionSubtree (funcIndex : Nat)
deriving DecidableEq, Repr

/-- The transform type tags, used by the decoder's dispatch
(`SHORT_KEY_TO_TRANSFORM`). -/
inductive TransformType where
  | focusSubtree
  | focusFunction
  | focusCategory
  | mergeCallNode
  | mergeFunction
  | dropFunction
  | collapseResource
  | collapseDirectRecursion
  | collapseIndirectRecursion
  | collapseFunctionSubtree
deriving DecidableEq, Repr

/-- The `SHORT_KEY_TO_TRANSFORM` table combined with
`convertToTransformType` (utils/flow, not under src/, which returns the
transform type for a known value and null otherwise): unknown short keys map
to `none`. -/
def shortKeyToTransform : List Char → Option TransformType
  | ['f'] => some .focusSubtree
  | ['f', 'f'] => some .focusFunction
  | ['f', 'g'] => some .focusCategory
  | ['m', 'c', 'n'] => some .mergeCallNode
  | ['m', 'f'] => some .mergeFunction
  | ['d', 'f'] => some .dropFunction
  | ['c', 'r'] => some .collapseResource
  | ['r', 'e', 'c'] => some .collapseDirectRecursion
  | ['i', 'r', 'e', 'c'] => some .collapseIndirectRecursion
  | ['c', 'f', 's'] => some .collapseFunctionSubtree
  | _ => none

/-- The `TRANSFORM_TO_SHORT_KEY` table. -/
def transformToShortKey : Transform → List Char
  | .focusSubtree .. => ['f']
  | .focusFunction _ => ['f', 'f']
  | .focusCategory _ => ['f', 'g']
  | .mergeCallNode .. => ['m', 'c', 'n']
  | .mergeFunction _ => ['m', 'f']
  | .dropFunction _ => ['d', 'f']
  | .collapseResource .. => ['c', 'r']
  | .collapseDirectRecursion .. => ['r', 'e', 'c']
  | .collapseIndirectRecursion .. => ['i', 'r', 'e', 'c']
  | .collapseFunctionSubtree _ => ['c', 'f', 's']

/-- The canonical serialization of an implementation filter tag. -/
def implementationFilterToChars : ImplementationFilter → List Char
  | .combined => "combined".data
  | .js => "js".data
  | .cpp => "cpp".data

/-- Modelled from the spec: `toValidImplementationFilter` (profile-data, not
under src/) — the implementation filter tag is `combined | js | cpp`; any
other (or missing) value falls back to `combined`. -/
def toValidImplementationFilter (s : Option (List Char)) :
    ImplementationFilter :=
  match s with
  | some s => if s = "js".data then .js
      else if s = "cpp".data then .cpp
      else .combined
  | none => .combined

/-- The decimal digits of `n`, most significant first, computed with `fuel`
bounding the recursion so the definition stays structural; empty when
`n = 0`. -/
def natToCharsAux : Nat → Nat → List Char
  | 0, _ => []
  | fuel + 1, n =>
    if n = 0 then []
    else natToCharsAux fuel (n / 10) ++ [Nat.digitChar (n % 10)]

/-- The canonical decimal serialization of a natural number — JS
`String(n)`. -/
def natToChars (n : Nat) : List Char :=
  if n = 0 then ['0'] else natToCharsAux n n

/-- JS `parseInt(s, 10)` on a field produced by splitting at `-`, modelled
as decimal digit-prefix parsing: `NaN` (here `none`) when the field does not
start with a digit, otherwise the value of its longest digit prefix. -/
def parseIntJS (s : List Char) : Option Nat :=
  if (s.takeWhile (fun c => c.isDigit)).isEmpty then none
  else some ((s.takeWhile (fun c => c.isDigit)).foldl
    (fun acc c => acc * 10 + (c.toNat - 48)) 0)

/-- Modelled from the spec: `encodeUintArrayForUrlComponent`
(utils/uintarray-encoding, not under src/) — a URL-safe injective encoding
of an integer array, modelled as decimal numerals separated by the letter
`w` (the concrete alphabet is irrelevant to the codec's round-trip
contract; it only must avoid the `-` and `~` separators). -/
def encodeUintArrayForUrlComponent (path : List Nat) : List Char :=
  List.intercalate ['w'] (path.map natToChars)

/-- Modelled from the spec: `decodeUintArrayFromUrlComponent` — the decoder
of `encodeUintArrayForUrlComponent`, total on arbitrary (also missing)
input, skipping unparseable components. -/
def decodeUintArrayFromUrlComponent (s : Option (List Char)) : List Nat :=
  match s with
  | none => []
  | some s => (s.splitOn 'w').filterMap parseIntJS

/-- `Boolean(tuple[3])` of the source: missing or empty string is false,
any other string true. -/
def invertedRawToBool (s : Option (List Char)) : Bool :=
  match s with
  | none => false
  | some s => !s.isEmpty

/-- The decoding of one already-split transform tuple. Returns `none` when
the entry is skipped: an unrecognized short key, or a numeric field that
fails `parseInt` validation (the source's `>= 0` guards cannot fail on a
field that contains no `-`). -/
def parseTupleTransform (tuple : List (List Char)) : Option Transform :=
  match shortKeyToTransform (tuple.getD 0 []) with
  | none => none
  | some ty =>
    match ty with
    | .collapseResource =>
      match (tuple.get? 2).bind parseIntJS, (tuple.get? 3).bind parseIntJS with
      | some resourceIndex, some collapsedFuncIndex =>
          some (.collapseResource (toValidImplementationFilter (tuple.get? 1))
            resourceIndex collapsedFuncIndex)
      | _, _ => none
    | .collapseDirectRecursion =>
      match (tuple.get? 2).bind parseIntJS with
      | some funcIndex =>
          some (.collapseDirectRecursion
            (toValidImplementationFilter (tuple.get? 1)) funcIndex)
      | none => none
    | .collapseIndirectRecursion =>
      match (tuple.get? 2).bind parseIntJS with
      | some funcIndex =>
          some (.collapseIndirectRecursion
            (toValidImplementationFilter (tuple.get? 1)) funcIndex)
      | none => none
    | .mergeFunction =>
      match (tuple.get? 1).bind parseIntJS with
      | some funcIndex => some (.mergeFunction funcIndex)
      | none => none
    | .focusFunction =>
      match (tuple.get? 1).bind parseIntJS with
      | some funcIndex => some (.focusFunction funcIndex)
      | none => none
    | .dropFunction =>
      match (tuple.get? 1).bind parseIntJS with
      | some funcIndex => some (.dropFunction funcIndex)
      | none => none
    | .collapseFunctionSubtree =>
      match (tuple.get? 1).bind parseIntJS with
      | some funcIndex => some (.collapseFunctionSubtree funcIndex)
      | none => none
    | .focusCategory =>
      match (tuple.get? 1).bind parseIntJS with
      | some category => some (.focusCategory category)
      | none => none
    | .focusSubtree =>
        some (.focusSubtree (toValidImplementationFilter (tuple.get? 1))
          (decodeUintArrayFromUrlComponent (tuple.get? 2))
          (invertedRawToBool (tuple.get? 3)))
    | .mergeCallNode =>
        some (.mergeCallNode (toValidImplementationFilter (tuple.get? 1))
          (decodeUintArrayFromUrlComponent (tuple.get? 2)))

/-- The decoding of one `-`-separated transform entry — the body of the
`forEach` of `parseTransforms`: split the entry at `-` and decode the
tuple. -/
def parseSingleTransform (entry : List Char) : Option Transform :=
  parseTupleTransform (entry.splitOn '-')

/-- Embedding of `parseTransforms` (transforms.ts): empty string decodes to
the empty stack; otherwise split at `~` and push the decoding of every
entry that is not skipped. -/
def parseTransforms (transformString : List Char) : List Transform :=
  if transformString.isEmpty then []
  else
    (transformString.splitOn '~').foldl
      (fun transforms entry =>
        match parseSingleTransform entry with
        | some t => transforms ++ [t]
        | none => transforms)
      []

/-- The serialization of one transform — the body of the `map` of
`stringifyTransforms`. The `focus-subtree` case appends `-i` exactly when
`inverted` is set; `merge-call-node` carries no inverted flag. -/
def stringifyTransform : Transform → List Char
  | .mergeFunction funcIndex =>
      ['m', 'f'] ++ '-' :: natToChars funcIndex
  | .dropFunction funcIndex =>
      ['d', 'f'] ++ '-' :: natToChars funcIndex
  | .collapseFunctionSubtree funcIndex =>
      ['c', 'f', 's'] ++ '-' :: natToChars funcIndex
  | .focusFunction funcIndex =>
      ['f', 'f'] ++ '-' :: natToChars funcIndex
  | .focusCategory category =>
      ['f', 'g'] ++ '-' :: natToChars category
  | .collapseResource implementation resourceIndex collapsedFuncIndex =>
      ['c', 'r'] ++ '-' :: implementationFilterToChars implementation ++
        '-' :: natToChars resourceIndex ++ '-' :: natToChars collapsedFuncIndex
  | .collapseDirectRecursion implementation funcIndex =>
      ['r', 'e', 'c'] ++ '-' :: implementationFilterToChars implementation ++
        '-' :: natToChars funcIndex
  | .collapseIndirectRecursion implementation funcIndex =>
      ['i', 'r', 'e', 'c'] ++ '-' :: implementationFilterToChars implementation
        ++ '-' :: natToChars funcIndex
  | .focusSubtree implementation callNodePath inverted =>
      ['f'] ++ '-' :: implementationFilterToChars implementation ++
        '-' :: encodeUintArrayForUrlComponent callNodePath ++
        (if inverted then ['-', 'i'] else [])
  | .mergeCallNode implementation callNodePath =>
      ['m', 'c', 'n'] ++ '-' :: implementationFilterToChars implementation ++
        '-' :: encodeUintArrayForUrlComponent callNodePath

/-- Embedding of `stringifyTransforms` (transforms.ts): serialize each
transform and join with `~`. -/
def stringifyTransforms (transformStack : List Transform) : List Char :=
  List.intercalate ['~'] (transformStack.map stringifyTransform)

/-! ### Round-trip lemmas for the numeric and path fields -/

theorem digitChar_isDigit {d : Nat} (h : d < 10) :
    (Nat.digitChar d).isDigit = true := by
  interval_cases d <;> decide

theorem digitChar_toNat {d : Nat} (h : d < 10) :
    (Nat.digitChar d).toNat - 48 = d := by
  interval_cases d <;> decide

theorem ne_of_isDigit {c x : Char} (h : c.isDigit = true)
    (hx : x.isDigit = false) : c ≠ x := by
  intro he
  rw [he, hx] at h
  cases h

theorem natToCharsAux_digits :
    ∀ fuel n, ∀ c ∈ natToCharsAux fuel n, c.isDigit = true := by
  intro fuel
  induction fuel with
  | zero => intro n c hc; cases hc
  | succ f ih =>
    intro n c hc
    by_cases hn : n = 0
    · rw [natToCharsAux, if_pos hn] at hc; cases hc
    · rw [natToCharsAux, if_neg hn] at hc
      rcases List.mem_append.1 hc with h | h
      · exact ih (n / 10) c h
      · rcases List.mem_singleton.1 h with rfl
        exact digitChar_isDigit (Nat.mod_lt n (by omega))

theorem natToChars_digits (n : Nat) :
    ∀ c ∈ natToChars n, c.isDigit = true := by
  intro c hc
  unfold natToChars at hc
  split_ifs at hc with h
  · rcases List.mem_singleton.1 hc with rfl; decide
  · exact natToCharsAux_digits n n c hc

theorem not_mem_natToChars {x : Char} (hx : x.isDigit = false) (n : Nat) :
    x ∉ natToChars n := by
  intro hmem
  exact ne_of_isDigit (natToChars_digits n x hmem) hx rfl

theorem natToCharsAux_value :
    ∀ fuel n, n ≤ fuel →
      (natToCharsAux fuel n).foldl (fun acc c => acc * 10 + (c.toNat - 48)) 0
        = n := by
  intro fuel
  induction fuel with
  | zero => intro n hn; interval_cases n; rfl
  | succ f ih =>
    intro n hn
    by_cases h0 : n = 0
    · rw [natToCharsAux, if_pos h0, h0]; rfl
    · rw [natToCharsAux, if_neg h0, List.foldl_append,
        ih (n / 10) (by omega)]
      simp only [List.foldl_cons, List.foldl_nil]
      rw [digitChar_toNat (Nat.mod_lt n (by omega))]
      omega

theorem natToCharsAux_ne_nil (fuel n : Nat) (h0 : n ≠ 0) (hle : n ≤ fuel) :
    natToCharsAux fuel n ≠ [] := by
  cases fuel with
  | zero => omega
  | succ f =>
    rw [natToCharsAux, if_neg h0]
    simp

theorem takeWhile_all {α : Type _} (p : α → Bool) :
    ∀ l : List α, (∀ c ∈ l, p c = true) → l.takeWhile p = l := by
  intro l
  induction l with
  | nil => intro _; rfl
  | cons a t ih =>
    intro hall
    rw [List.takeWhile_cons, hall a (List.mem_cons_self _ _)]
    simp [ih (fun c hc => hall c (List.mem_cons_of_mem _ hc))]

/-- JS `parseInt` recovers the canonical decimal serialization. -/
theorem parseIntJS_natToChars (n : Nat) :
    parseIntJS (natToChars n) = some n := by
  by_cases h0 : n = 0
  · subst h0; decide
  · unfold parseIntJS
    rw [takeWhile_all _ _ (natToChars_digits n)]
    unfold natToChars
    rw [if_neg h0]
    rw [List.isEmpty_eq_false_iff_exists_mem.2 (by
      rcases List.exists_mem_of_ne_nil _ (natToCharsAux_ne_nil n n h0 le_rfl)
        with ⟨c, hc⟩
      exact ⟨c, hc⟩)]
    rw [if_neg (by simp), natToCharsAux_value n n le_rfl]

theorem mem_intercalate_cases {α : Type _} (sep : List α) (c : α) :
    ∀ parts : List (List α), c ∈ List.intercalate sep parts →
      c ∈ sep ∨ ∃ p ∈ parts, c ∈ p := by
  intro parts
  induction parts with
  | nil => intro hc; cases hc
  | cons a t ih =>
    cases t with
    | nil =>
      intro hc
      rw [List.intercalate] at hc
      simp only [List.intersperse_single, List.flatten] at hc
      right
      exact ⟨a, List.mem_cons_self _ _, by simpa using hc⟩
    | cons b t' =>
      intro hc
      rw [List.intercalate, List.intersperse_cons₂, List.flatten_cons,
        List.flatten_cons] at hc
      rcases List.mem_append.1 hc with h | h
      · right; exact ⟨a, List.mem_cons_self _ _, h⟩
      rcases List.mem_append.1 h with h | h
      · left; exact h
      · rcases ih (by rw [List.intercalate]; exact h) with h | ⟨p, hp, hcp⟩
        · left; exact h
        · right; exact ⟨p, List.mem_cons_of_mem _ hp, hcp⟩

theorem mem_encodeUintArray_cases (path : List Nat) (c : Char)
    (hc : c ∈ encodeUintArrayForUrlComponent path) :
    c = 'w' ∨ c.isDigit = true := by
  rcases mem_intercalate_cases ['w'] c (path.map natToChars) hc with h | ⟨p, hp, hcp⟩
  · left; exact List.mem_singleton.1 h
  · rcases List.mem_map.1 hp with ⟨n, _, rfl⟩
    right; exact natToChars_digits n c hcp

theorem dash_not_mem_encodeUintArray (path : List Nat) :
    '-' ∉ encodeUintArrayForUrlComponent path := by
  intro hc
  rcases mem_encodeUintArray_cases path '-' hc with h | h
  · cases h
  · cases h

theorem tilde_not_mem_encodeUintArray (path : List Nat) :
    '~' ∉ encodeUintArrayForUrlComponent path := by
  intro hc
  rcases mem_encodeUintArray_cases path '~' hc with h | h
  · cases h
  · cases h

theorem dash_not_mem_implementationFilterToChars (f : ImplementationFilter) :
    '-' ∉ implementationFilterToChars f := by
  cases f <;> decide

theorem tilde_not_mem_implementationFilterToChars (f : ImplementationFilter) :
    '~' ∉ implementationFilterToChars f := by
  cases f <;> decide

theorem toValid_implementationFilterToChars (f : ImplementationFilter) :
    toValidImplementationFilter (some (implementationFilterToChars f)) = f := by
  cases f <;> decide

/-- The path codec round-trips. -/
theorem decodeUintArray_encodeUintArray (path : List Nat) :
    decodeUintArrayFromUrlComponent
      (some (encodeUintArrayForUrlComponent path)) = path := by
  show ((encodeUintArrayForUrlComponent path).splitOn 'w').filterMap
    parseIntJS = path
  cases path with
  | nil => decide
  | cons p t =>
    rw [show encodeUintArrayForUrlComponent (p :: t)
      = ['w'].intercalate (List.map natToChars (p :: t)) from rfl]
    rw [List.splitOn_intercalate _ 'w'
      (fun l hl => by
        rcases List.mem_map.1 hl with ⟨n, _, rfl⟩
        exact fun hcw => ne_of_isDigit (natToChars_digits n 'w' hcw)
          (by decide) rfl)
      (by simp)]
    rw [List.filterMap_map]
    have : ∀ l : List Nat,
        l.filterMap (parseIntJS ∘ natToChars) = l := by
      intro l
      induction l with
      | nil => rfl
      | cons x xs ih =>
        rw [List.filterMap_cons]
        simp only [Function.comp_apply, parseIntJS_natToChars]
        rw [ih]
    exact this (p :: t)

theorem splitOn_dash (parts : List (List Char))
    (h : ∀ p ∈ parts, '-' ∉ p) (hne : parts ≠ []) :
    (['-'].intercalate parts).splitOn '-' = parts :=
  List.splitOn_intercalate parts '-' h hne

/-- Decoding recovers every serialized transform. -/
theorem parseSingleTransform_stringifyTransform (t : Transform) :
    parseSingleTransform (stringifyTransform t) = some t := by
  cases t with
  | mergeFunction funcIndex =>
    show parseTupleTransform
      ((stringifyTransform (.mergeFunction funcIndex)).splitOn '-') = _
    rw [show stringifyTransform (.mergeFunction funcIndex)
        = ['-'].intercalate [['m', 'f'], natToChars funcIndex] from by
      simp [stringifyTransform, List.intercalate, List.intersperse]]
    rw [splitOn_dash _ (by
      intro p hp
      fin_cases hp
      · decide
      · exact not_mem_natToChars (by decide) _) (by simp)]
    have h1 : parseTupleTransform [['m', 'f'], natToChars funcIndex]
        = match parseIntJS (natToChars funcIndex) with
          | some x => some (.mergeFunction x)
          | none => none := rfl
    rw [h1, parseIntJS_natToChars]
  | dropFunction funcIndex =>
    show parseTupleTransform
      ((stringifyTransform (.dropFunction funcIndex)).splitOn '-') = _
    rw [show stringifyTransform (.dropFunction funcIndex)
        = ['-'].intercalate [['d', 'f'], natToChars funcIndex] from by
      simp [stringifyTransform, List.intercalate, List.intersperse]]
    rw [splitOn_dash _ (by
      intro p hp
      fin_cases hp
      · decide
      · exact not_mem_natToChars (by decide) _) (by simp)]
    have h1 : parseTupleTransform [['d', 'f'], natToChars funcIndex]
        = match parseIntJS (natToChars funcIndex) with
          | some x => some (.dropFunction x)
          | none => none := rfl
    rw [h1, parseIntJS_natToChars]
  | collapseFunctionSubtree funcIndex =>
    show parseTupleTransform
      ((stringifyTransform (.collapseFunctionSubtree funcIndex)).splitOn '-')
      = _
    rw [show stringifyTransform (.collapseFunctionSubtree funcIndex)
        = ['-'].intercalate [['c', 'f', 's'], natToChars funcIndex] from by
      simp [stringifyTransform, List.intercalate, List.intersperse]]
    rw [splitOn_dash _ (by
      intro p hp
      fin_cases hp
      · decide
      · exact not_mem_natToChars (by decide) _) (by simp)]
    have h1 : parseTupleTransform [['c', 'f', 's'], natToChars funcIndex]
        = match parseIntJS (natToChars funcIndex) with
          | some x => some (.collapseFunctionSubtree x)
          | none => none := rfl
    rw [h1, parseIntJS_natToChars]
  | focusFunction funcIndex =>
    show parseTupleTransform
      ((stringifyTransform (.focusFunction funcIndex)).splitOn '-') = _
    rw [show stringifyTransform (.focusFunction funcIndex)
        = ['-'].intercalate [['f', 'f'], natToChars funcIndex] from by
      simp [stringifyTransform, List.intercalate, List.intersperse]]
    rw [splitOn_dash _ (by
      intro p hp
      fin_cases hp
      · decide
      · exact not_mem_natToChars (by decide) _) (by simp)]
    have h1 : parseTupleTransform [['f', 'f'], natToChars funcIndex]
        = match parseIntJS (natToChars funcIndex) with
          | some x => some (.focusFunction x)
          | none => none := rfl
    rw [h1, parseIntJS_natToChars]
  | focusCategory category =>
    show parseTupleTransform
      ((stringifyTransform (.focusCategory category)).splitOn '-') = _
    rw [show stringifyTransform (.focusCategory category)
        = ['-'].intercalate [['f', 'g'], natToChars category] from by
      simp [stringifyTransform, List.intercalate, List.intersperse]]
    rw [splitOn_dash _ (by
      intro p hp
      fin_cases hp
      · decide
      · exact not_mem_natToChars (by decide) _) (by simp)]
    have h1 : parseTupleTransform [['f', 'g'], natToChars category]
        = match parseIntJS (natToChars category) with
          | some x => some (.focusCategory x)
          | none => none := rfl
    rw [h1, parseIntJS_natToChars]
  | collapseResource implementation resourceIndex collapsedFuncIndex =>
    show parseTupleTransform
      ((stringifyTransform (.collapseResource implementation resourceIndex
        collapsedFuncIndex)).splitOn '-') = _
    rw [show stringifyTransform (.collapseResource implementation
          resourceIndex collapsedFuncIndex)
        = ['-'].intercalate [['c', 'r'],
            implementationFilterToChars implementation,
            natToChars resourceIndex, natToChars collapsedFuncIndex] from by
      simp [stringifyTransform, List.intercalate, List.intersperse]]
    rw [splitOn_dash _ (by
      intro p hp
      fin_cases hp
      · decide
      · exact dash_not_mem_implementationFilterToChars _
      · exact not_mem_natToChars (by decide) _
      · exact not_mem_natToChars (by decide) _) (by simp)]
    have h1 : parseTupleTransform [['c', 'r'],
          implementationFilterToChars implementation,
          natToChars resourceIndex, natToChars collapsedFuncIndex]
        = match parseIntJS (natToChars resourceIndex),
            parseIntJS (natToChars collapsedFuncIndex) with
          | some a, some b => some (.collapseResource
              (toValidImplementationFilter
                (some (implementationFilterToChars implementation))) a b)
          | _, _ => none := rfl
    rw [h1, parseIntJS_natToChars resourceIndex,
      parseIntJS_natToChars collapsedFuncIndex,
      toValid_implementationFilterToChars]
  | collapseDirectRecursion implementation funcIndex =>
    show parseTupleTransform
      ((stringifyTransform (.collapseDirectRecursion implementation
        funcIndex)).splitOn '-') = _
    rw [show stringifyTransform
          (.collapseDirectRecursion implementation funcIndex)
        = ['-'].intercalate [['r', 'e', 'c'],
            implementationFilterToChars implementation,
            natToChars funcIndex] from by
      simp [stringifyTransform, List.intercalate, List.intersperse]]
    rw [splitOn_dash _ (by
      intro p hp
      fin_cases hp
      · decide
      · exact dash_not_mem_implementationFilterToChars _
      · exact not_mem_natToChars (by decide) _) (by simp)]
    have h1 : parseTupleTransform [['r', 'e', 'c'],
          implementationFilterToChars implementation, natToChars funcIndex]
        = match parseIntJS (natToChars funcIndex) with
          | some x => some (.collapseDirectRecursion
              (toValidImplementationFilter
                (some (implementationFilterToChars implementation))) x)
          | none => none := rfl
    rw [h1, parseIntJS_natToChars, toValid_implementationFilterToChars]
  | collapseIndirectRecursion implementation funcIndex =>
    show parseTupleTransform
      ((stringifyTransform (.collapseIndirectRecursion implementation
        funcIndex)).splitOn '-') = _
    rw [show stringifyTransform
          (.collapseIndirectRecursion implementation funcIndex)
        = ['-'].intercalate [['i', 'r', 'e', 'c'],
            implementationFilterToChars implementation,
            natToChars funcIndex] from by
      simp [stringifyTransform, List.intercalate, List.intersperse]]
    rw [splitOn_dash _ (by
      intro p hp
      fin_cases hp
      · decide
      · exact dash_not_mem_implementationFilterToChars _
      · exact not_mem_natToChars (by decide) _) (by simp)]
    have h1 : parseTupleTransform [['i', 'r', 'e', 'c'],
          implementationFilterToChars implementation, natToChars funcIndex]
        = match parseIntJS (natToChars funcIndex) with
          | some x => some (.collapseIndirectRecursion
              (toValidImplementationFilter
                (some (implementationFilterToChars implementation))) x)
          | none => none := rfl
    rw [h1, parseIntJS_natToChars, toValid_implementationFilterToChars]
  | mergeCallNode implementation callNodePath =>
    show parseTupleTransform
      ((stringifyTransform (.mergeCallNode implementation
        callNodePath)).splitOn '-') = _
    rw [show stringifyTransform (.mergeCallNode implementation callNodePath)
        = ['-'].intercalate [['m', 'c', 'n'],
            implementationFilterToChars implementation,
            encodeUintArrayForUrlComponent callNodePath] from by
      simp [stringifyTransform, List.intercalate, List.intersperse]]
    rw [splitOn_dash _ (by
      intro p hp
      fin_cases hp
      · decide
      · exact dash_not_mem_implementationFilterToChars _
      · exact dash_not_mem_encodeUintArray _) (by simp)]
    have h1 : parseTupleTransform [['m', 'c', 'n'],
          implementationFilterToChars implementation,
          encodeUintArrayForUrlComponent callNodePath]
        = some (.mergeCallNode
            (toValidImplementationFilter
              (some (implementationFilterToChars implementation)))
            (decodeUintArrayFromUrlComponent
              (some (encodeUintArrayForUrlComponent callNodePath)))) := rfl
    rw [h1, toValid_implementationFilterToChars,
      decodeUintArray_encodeUintArray]
  | focusSubtree implementation callNodePath inverted =>
    cases inverted with
    | false =>
      show parseTupleTransform
        ((stringifyTransform (.focusSubtree implementation callNodePath
          false)).splitOn '-') = _
      rw [show stringifyTransform
            (.focusSubtree implementation callNodePath false)
          = ['-'].intercalate [['f'],
              implementationFilterToChars implementation,
              encodeUintArrayForUrlComponent callNodePath] from by
        simp [stringifyTransform, List.intercalate, List.intersperse]]
      rw [splitOn_dash _ (by
        intro p hp
        fin_cases hp
        · decide
        · exact dash_not_mem_implementationFilterToChars _
        · exact dash_not_mem_encodeUintArray _) (by simp)]
      have h1 : parseTupleTransform [['f'],
            implementationFilterToChars implementation,
            encodeUintArrayForUrlComponent callNodePath]
          = some (.focusSubtree
              (toValidImplementationFilter
                (some (implementationFilterToChars implementation)))
              (decodeUintArrayFromUrlComponent
                (some (encodeUintArrayForUrlComponent callNodePath)))
              false) := rfl
      rw [h1, toValid_implementationFilterToChars,
        decodeUintArray_encodeUintArray]
    | true =>
      show parseTupleTransform
        ((stringifyTransform (.focusSubtree implementation callNodePath
          true)).splitOn '-') = _
      rw [show stringifyTransform
            (.focusSubtree implementation callNodePath true)
          = ['-'].intercalate [['f'],
              implementationFilterToChars implementation,
              encodeUintArrayForUrlComponent callNodePath, ['i']] from by
        simp [stringifyTransform, List.intercalate, List.intersperse]]
      rw [splitOn_dash _ (by
        intro p hp
        fin_cases hp
        · decide
        · exact dash_not_mem_implementationFilterToChars _
        · exact dash_not_mem_encodeUintArray _
        · decide) (by simp)]
      have h1 : parseTupleTransform [['f'],
            implementationFilterToChars implementation,
            encodeUintArrayForUrlComponent callNodePath, ['i']]
          = some (.focusSubtree
              (toValidImplementationFilter
                (some (implementationFilterToChars implementation)))
              (decodeUintArrayFromUrlComponent
                (some (encodeUintArrayForUrlComponent callNodePath)))
              true) := rfl
      rw [h1, toValid_implementationFilterToChars,
        decodeUintArray_encodeUintArray]

theorem tilde_not_mem_stringifyTransform (t : Transform) :
    '~' ∉ stringifyTransform t := by
  have hnat : ∀ n, '~' ∉ natToChars n :=
    fun n => not_mem_natToChars (by decide) n
  cases t with
  | focusSubtree implementation callNodePath inverted =>
    cases inverted <;>
      simp [stringifyTransform, hnat,
        tilde_not_mem_implementationFilterToChars,
        tilde_not_mem_encodeUintArray]
  | mergeCallNode implementation callNodePath =>
    simp [stringifyTransform, hnat,
      tilde_not_mem_implementationFilterToChars,
      tilde_not_mem_encodeUintArray]
  | collapseResource implementation resourceIndex collapsedFuncIndex =>
    simp [stringifyTransform, hnat,
      tilde_not_mem_implementationFilterToChars]
  | collapseDirectRecursion implementation funcIndex =>
    simp [stringifyTransform, hnat,
      tilde_not_mem_implementationFilterToChars]
  | collapseIndirectRecursion implementation funcIndex =>
    simp [stringifyTransform, hnat,
      tilde_not_mem_implementationFilterToChars]
  | mergeFunction funcIndex => simp [stringifyTransform, hnat]
  | dropFunction funcIndex => simp [stringifyTransform, hnat]
  | collapseFunctionSubtree funcIndex => simp [stringifyTransform, hnat]
  | focusFunction funcIndex => simp [stringifyTransform, hnat]
  | focusCategory category => simp [stringifyTransform, hnat]

theorem foldl_push_filterMap :
    ∀ (l : List (List Char)) (acc : List Transform),
      l.foldl
        (fun transforms entry =>
          match parseSingleTransform entry with
          | some t => transforms ++ [t]
          | none => transforms)
        acc = acc ++ l.filterMap parseSingleTransform := by
  intro l
  induction l with
  | nil => intro acc; simp
  | cons x t ih =>
    intro acc
    rw [List.foldl_cons]
    cases hfx : parseSingleTransform x with
    | none =>
      simp only [hfx]
      rw [ih acc, List.filterMap_cons, hfx]
    | some y =>
      simp only [hfx]
      rw [ih (acc ++ [y]), List.filterMap_cons, hfx, List.append_assoc]
      rfl

/-- `parseTransforms` is the entry-wise decoding of the `~`-split string,
keeping exactly the entries whose decoding is not skipped. -/
theorem parseTransforms_eq_filterMap (s : List Char) :
    parseTransforms s = (s.splitOn '~').filterMap parseSingleTransform := by
  unfold parseTransforms
  by_cases hs : s.isEmpty
  · have hnil : s = [] := by
      cases s with
      | nil => rfl
      | cons a t => cases hs
    subst hnil
    decide
  · rw [if_neg hs]
    simpa using foldl_push_filterMap (s.splitOn '~') []

/-- C6: decoding then re-encoding a canonically formatted transform-stack
string yields the original string: `parseTransforms` inverts
`stringifyTransforms` on every transform stack, hence
`stringifyTransforms ∘ parseTransforms` fixes every canonical string; the
empty string round-trips to the empty string. -/
theorem transform_stack_string_roundtrip :
    (∀ transformStack : List Transform,
      parseTransforms (stringifyTransforms transformStack) = transformStack
      ∧ stringifyTransforms
          (parseTransforms (stringifyTransforms transformStack))
        = stringifyTransforms transformStack)
    ∧ parseTransforms [] = [] ∧ stringifyTransforms [] = [] := by
  have hmain : ∀ ts : List Transform,
      parseTransforms (stringifyTransforms ts) = ts := by
    intro ts
    cases ts with
    | nil => rfl
    | cons t rest =>
      rw [parseTransforms_eq_filterMap, stringifyTransforms,
        List.splitOn_intercalate _ '~'
          (fun l hl => by
            rcases List.mem_map.1 hl with ⟨x, _, rfl⟩
            exact tilde_not_mem_stringifyTransform x)
          (by simp),
        List.filterMap_map]
      have hid : ∀ l : List Transform,
          l.filterMap (parseSingleTransform ∘ stringifyTransform) = l := by
        intro l
        induction l with
        | nil => rfl
        | cons x xs ih =>
          rw [List.filterMap_cons]
          simp only [Function.comp_apply,
            parseSingleTransform_stringifyTransform]
          rw [ih]
      exact hid (t :: rest)
  exact ⟨fun ts => ⟨hmain ts, by rw [hmain ts]⟩, rfl, rfl⟩

/-- The numeric-field validation of one split transform entry failing, per
the dispatch of `parseTransforms`: the fields that `parseInt` must accept
for the entry to be pushed (`collapse-resource` reads tuple[2] and
tuple[3]; the recursion collapses read tuple[2]; the single-func transforms
and `focus-category` read tuple[1]; `focus-subtree` and `merge-call-node`
have no numeric validation). -/
def numericFieldsFailValidation (tuple : List (List Char)) : Prop :=
  match shortKeyToTransform (tuple.getD 0 []) with
  | none => False
  | some ty =>
    match ty with
    | .collapseResource =>
        (tuple.get? 2).bind parseIntJS = none
        ∨ (tuple.get? 3).bind parseIntJS = none
    | .collapseDirectRecursion => (tuple.get? 2).bind parseIntJS = none
    | .collapseIndirectRecursion => (tuple.get? 2).bind parseIntJS = none
    | .mergeFunction => (tuple.get? 1).bind parseIntJS = none
    | .focusFunction => (tuple.get? 1).bind parseIntJS = none
    | .dropFunction => (tuple.get? 1).bind parseIntJS = none
    | .collapseFunctionSubtree => (tuple.get? 1).bind parseIntJS = none
    | .focusCategory => (tuple.get? 1).bind parseIntJS = none
    | .focusSubtree => False
    | .mergeCallNode => False

/-- C9: `parseTransforms` decodes every `~`-separated entry independently
and skips exactly the entries whose short token is unrecognized or whose
numeric fields fail `parseInt` validation; all remaining entries are still
decoded (the function is total — no exception escapes a malformed entry).
In particular the middle entry `zzz-3` of `mf-5~zzz-3~df-2` is skipped
while `mf-5` and `df-2` decode. -/
theorem parse_skips_exactly_malformed_entries :
    (∀ s : List Char,
      parseTransforms s = (s.splitOn '~').filterMap parseSingleTransform)
    ∧ (∀ entry : List Char,
      parseSingleTransform entry = none
        ↔ (shortKeyToTransform ((entry.splitOn '-').getD 0 []) = none
            ∨ numericFieldsFailValidation (entry.splitOn '-')))
    ∧ parseTransforms "mf-5~zzz-3~df-2".data
      = [.mergeFunction 5, .dropFunction 2] := by
  refine ⟨parseTransforms_eq_filterMap, ?_, by decide⟩
  intro entry
  show parseTupleTransform (entry.splitOn '-') = none ↔ _
  generalize entry.splitOn '-' = tuple
  unfold parseTupleTransform numericFieldsFailValidation
  cases hsk : shortKeyToTransform (tuple.getD 0 []) with
  | none => simp
  | some ty =>
    cases ty with
    | collapseResource =>
      cases h2 : (tuple.get? 2).bind parseIntJS with
      | none => simp [h2]
      | some a =>
        cases h3 : (tuple.get? 3).bind parseIntJS with
        | none => simp [h2, h3]
        | some b => simp [h2, h3]
    | collapseDirectRecursion =>
      cases h2 : (tuple.get? 2).bind parseIntJS with
      | none => simp [h2]
      | some a => simp [h2]
    | collapseIndirectRecursion =>
      cases h2 : (tuple.get? 2).bind parseIntJS with
      | none => simp [h2]
      | some a => simp [h2]
    | mergeFunction =>
      cases h1 : (tuple.get? 1).bind parseIntJS with
      | none => simp [h1]
      | some a => simp [h1]
    | focusFunction =>
      cases h1 : (tuple.get? 1).bind parseIntJS with
      | none => simp [h1]
      | some a => simp [h1]
    | dropFunction =>
      cases h1 : (tuple.get? 1).bind parseIntJS with
      | none => simp [h1]
      | some a => simp [h1]
    | collapseFunctionSubtree =>
      cases h1 : (tuple.get? 1).bind parseIntJS with
      | none => simp [h1]
      | some a => simp [h1]
    | focusCategory =>
      cases h1 : (tuple.get? 1).bind parseIntJS with
      | none => simp [h1]
      | some a => simp [h1]
    | focusSubtree => simp
    | mergeCallNode => simp

/-! ## C2: the thread filter pipeline (selectors/per-thread/thread.ts)

The selector chain `getCPUProcessedThread → getTabFilteredThread →
getRangeFilteredThread → _getImplementationFilteredThread →
_getImplementationAndSearchFilteredThread → getFilteredThread` is in the
analyzed source; the table-level filter functions it delegates to
(profile-data, cpu) are not under src/ and are modelled from the spec at
the granularity of samples carrying a time, an optional tab page, and an
optional call path of funcs. -/

/-- One sample of the pipeline's thread model: its time, the tab page it
belongs to (if any), and its call path (`none` = null stack). -/
structure PipeSample where
  time : ℤ
  page : Option Nat
  path : Option (List Nat)
deriving DecidableEq, Repr

/-- The thread model the pipeline filters: its samples, whether the samples
table has a `threadCPUDelta` column, and the func table's `isJS` column. -/
structure PipeThread where
  samples : List PipeSample
  hasThreadCPUDelta : Bool
  funcIsJS : List Bool
deriving DecidableEq, Repr

/-- The state the pipeline selectors read: profile meta (`sampleUnits`),
the relevant tab pages, the committed range, the implementation filter, the
search terms (as searched func indices), the invert flag, the default
category, and the thread's transform stack. -/
structure PipelineConfig where
  sampleUnits : Bool
  relevantPages : List Nat
  committedRangeStart : ℤ
  committedRangeEnd : ℤ
  implementationFilter : ImplementationFilter
  searchFuncs : Option (List Nat)
  invertCallstack : Bool
  defaultCategory : Nat
  transformStack : List Transform
deriving DecidableEq, Repr

/-- Modelled from the spec: `Cpu.processThreadCPUDelta` (not under src/)
produces a new samples table with processed `threadCPUDelta` values; at
this model's granularity (which carries no CPU-delta column) it rewrites no
represented column. -/
def processThreadCPUDelta (thread : PipeThread) : PipeThread := thread

/-- Modelled from the spec: `ProfileData.filterThreadByTab` (not under
src/) — a new samples table with only the samples that belong to the
active tab. -/
def filterThreadByTab (thread : PipeThread) (relevantPages : List Nat) :
    PipeThread :=
  { thread with
    samples := thread.samples.filter
      (fun s =>
        match s.page with
        | some p => relevantPages.contains p
        | none => false) }

/-- Modelled from the spec: `ProfileData.filterThreadSamplesToRange` (not
under src/) — a new samples table with only the samples in the committed
range. -/
def filterThreadSamplesToRange (thread : PipeThread) (rangeStart rangeEnd : ℤ) :
    PipeThread :=
  { thread with
    samples := thread.samples.filter
      (fun s => decide (rangeStart ≤ s.time) && decide (s.time < rangeEnd)) }

/-- Modelled from the spec: `ProfileData.filterThreadByImplementation` (not
under src/) — modify stacks and samples to only show a single
implementation; `combined` shows everything. -/
def filterThreadByImplementation (thread : PipeThread)
    (implementation : ImplementationFilter) : PipeThread :=
  match implementation with
  | .combined => thread
  | .js =>
    { thread with
      samples := thread.samples.map
        (fun s =>
          { s with
            path := s.path.map
              (List.filter (fun f => thread.funcIsJS.getD f false)) }) }
  | .cpp =>
    { thread with
      samples := thread.samples.map
        (fun s =>
          { s with
            path := s.path.map
              (List.filter (fun f => !(thread.funcIsJS.getD f false))) }) }

/-- Modelled from the spec: `ProfileData.filterThreadToSearchStrings` (not
under src/) — exclude the samples whose stack holds none of the searched
funcs; no search terms means no filtering. -/
def filterThreadToSearchStrings (thread : PipeThread)
    (searchFuncs : Option (List Nat)) : PipeThread :=
  match searchFuncs with
  | none => thread
  | some funcs =>
    { thread with
      samples := thread.samples.filter
        (fun s =>
          match s.path with
          | some p => p.any (fun f => funcs.contains f)
          | none => false) }

/-- Modelled from the spec: `ProfileData.invertCallstack` (not under src/)
— reorganize each stack so leaves become roots. -/
def invertCallstackThread (thread : PipeThread) : PipeThread :=
  { thread with
    samples := thread.samples.map
      (fun s => { s with path := s.path.map List.reverse }) }

/-- Embedding of the selector chain of `getThreadSelectorsPerThread`
(thread.ts): CPU processing (skipped when the samples have no
`threadCPUDelta` or the profile has no `sampleUnits`), then the tab filter
(skipped when no pages are relevant), the range filter, the implementation
filter, the search filter, and the invert filter. The transform stack of
the state is never consulted: the transform stage of the original pipeline
is absent (its selector reference is commented out in the source). -/
def getFilteredThread (cfg : PipelineConfig) (thread : PipeThread) :
    PipeThread :=
  let cpuProcessed :=
    if thread.hasThreadCPUDelta = false ∨ cfg.sampleUnits = false then thread
    else processThreadCPUDelta thread
  let tabFiltered :=
    if cfg.relevantPages.isEmpty then cpuProcessed
    else filterThreadByTab cpuProcessed cfg.relevantPages
  let rangeFiltered := filterThreadSamplesToRange tabFiltered
    cfg.committedRangeStart cfg.committedRangeEnd
  let implementationFiltered := filterThreadByImplementation rangeFiltered
    cfg.implementationFilter
  let searchFiltered := filterThreadToSearchStrings implementationFiltered
    cfg.searchFuncs
  if cfg.invertCallstack then invertCallstackThread searchFiltered
  else searchFiltered

/-- Modelled from the spec: the application of one transform to a thread
(`(Thread) → Thread`). The spec specifies the table-level behavior of
`drop-function` — remove every stack whose path contains the func; it gives
no table-level semantics for the other variants at this model's
granularity, so they leave the thread unchanged (the refutation below only
needs `drop-function`). -/
def applyTransformToThread (thread : PipeThread) (t : Transform) :
    PipeThread :=
  match t with
  | .dropFunction funcIndex =>
    { thread with
      samples := thread.samples.map
        (fun s =>
          { s with
            path := match s.path with
              | some p => if funcIndex ∈ p then none else some p
              | none => none }) }
  | _ => thread

/-- The in-order application of a transform stack to a thread. -/
def applyTransformStack (thread : PipeThread) (stack : List Transform) :
    PipeThread :=
  stack.foldl applyTransformToThread thread

/-- The pipeline the specification describes, stated for comparison with
`getFilteredThread`: identical except that the transform stack is applied
between the range filter and the implementation filter. -/
def getFilteredThreadSpec (cfg : PipelineConfig) (thread : PipeThread) :
    PipeThread :=
  let cpuProcessed :=
    if thread.hasThreadCPUDelta = false ∨ cfg.sampleUnits = false then thread
    else processThreadCPUDelta thread
  let tabFiltered :=
    if cfg.relevantPages.isEmpty then cpuProcessed
    else filterThreadByTab cpuProcessed cfg.relevantPages
  let rangeFiltered := filterThreadSamplesToRange tabFiltered
    cfg.committedRangeStart cfg.committedRangeEnd
  let transformed := applyTransformStack rangeFiltered cfg.transformStack
  let implementationFiltered := filterThreadByImplementation transformed
    cfg.implementationFilter
  let searchFiltered := filterThreadToSearchStrings implementationFiltered
    cfg.searchFuncs
  if cfg.invertCallstack then invertCallstackThread searchFiltered
  else searchFiltered

/-- C2 (counterexample to the claim as stated): with a non-empty transform
stack (`drop-function 1`) and otherwise neutral settings, the source
pipeline returns the thread with its sample untouched, while the
spec-described pipeline (transforms applied between range and
implementation filtering) nulls the sample's stack — so the filtered thread
does not reflect the transform stack. -/
theorem filter_pipeline_misses_transforms_counterexample :
    getFilteredThread
        ⟨false, [], 0, 10, .combined, none, false, 0, [.dropFunction 1]⟩
        ⟨[⟨1, none, some [0, 1, 2]⟩], false, []⟩
      ≠ getFilteredThreadSpec
        ⟨false, [], 0, 10, .combined, none, false, 0, [.dropFunction 1]⟩
        ⟨[⟨1, none, some [0, 1, 2]⟩], false, []⟩
    ∧ ([Transform.dropFunction 1] : List Transform) ≠ [] := by
  decide

/-- C2 (amended): the filter pipeline applies, in order: CPU processing,
the tab filter, the range filter, the implementation filter, the search
filter, and the invert filter — the transform stack is not applied at all:
the filtered thread is invariant under the state's transform stack, and
the source pipeline coincides with the spec-described pipeline run with an
emptied transform stack. -/
theorem filter_pipeline_ignores_transform_stack (cfg : PipelineConfig)
    (thread : PipeThread) (stack : List Transform) :
    getFilteredThread { cfg with transformStack := stack } thread
      = getFilteredThread cfg thread
    ∧ getFilteredThread cfg thread
      = getFilteredThreadSpec { cfg with transformStack := [] } thread := by
  constructor
  · rfl
  · rfl

end Profiler
